import Mathlib

/-!
Vulture: persisted file index, live change watcher and ranked search

A shallow embedding of the indexing core of the Vulture desktop search tool
(src/mainwindow.cpp, src/traverselib.h, src/drivewatcher.cpp) together with the
properties of it that are checked against the written specification.

Conventions of the embedding

* A QString, std::string or std::wstring is a list of characters.
* The items table of files.db is the list of its rows in insertion order; the
  autoincrement id column is never read by the program and is left out.
* The file system, the clock and the thread scheduler are explicit arguments:
  an attribute lookup is a function from paths to attribute words, a time stamp
  is a number of milliseconds, and an interleaving of the parallel filter tasks
  is the list of task numbers in the order in which they take their atomic steps.
* SQL statements are modelled on the rows they touch and are taken to succeed.
-/

namespace Vulture

/-- A path, a file name or a query text. -/
abbrev Path := List Char

/-! ## Qt string and file-name helpers used by the search -/

/-- Windows behaviour of QDir::fromNativeSeparators: each backslash becomes a slash. -/
def fromNativeSeparators (p : Path) : Path :=
  p.map (fun c => if c = '\\' then '/' else c)

/-- The part of a text after the last occurrence of sep, when sep occurs. -/
def afterLast (sep : Char) : List Char → Option (List Char)
  | [] => none
  | c :: cs =>
    match afterLast sep cs with
    | some r => some r
    | none => if c = sep then some cs else none

/-- Windows behaviour of QFileInfo(path).fileName(): the text after the last
separator, or after a leading drive specification when there is no separator. -/
def fileName (p : Path) : Path :=
  let q := fromNativeSeparators p
  match afterLast '/' q with
  | some r => r
  | none => if (q.drop 1).head? = some ':' then q.drop 2 else q

/-- Behaviour of QFileInfo(path).suffix(): the text after the last dot of the file name. -/
def suffix (p : Path) : Path :=
  match afterLast '.' (fileName p) with
  | some r => r
  | none => []

/-- Lower-casing of a text, as QString::toLower and the case folding of
Qt::CaseInsensitive act on the ASCII range. -/
def toLower (s : Path) : Path := s.map Char.toLower

/-- Whether needle occurs in hay as a contiguous run. -/
def hasInfix (needle : List Char) : List Char → Bool
  | [] => needle.isEmpty
  | c :: cs => needle.isPrefixOf (c :: cs) || hasInfix needle cs

/-- The test fname.contains(text, Qt::CaseInsensitive). -/
def containsCI (fname text : Path) : Bool :=
  hasInfix (toLower text) (toLower fname)

/-- The filter of mapFunc: the file name of pah contains the query text. -/
def matchesQuery (text : Path) (pah : Path) : Bool :=
  containsCI (fileName pah) text

/-! ## searchFileConcurrent: chunking -/

/-- The value threadsToUse = max(2, totalThreads - 2). -/
def threadsToUse (idealThreadCount : Int) : Nat :=
  (max 2 (idealThreadCount - 2)).toNat

/-- The value chunkSize = allPaths.size() / threadsToUse + 1.  List sizes are
natural numbers here: the snapshot is taken to be small enough for the int
arithmetic of the source not to wrap. -/
def chunkSize (size : Nat) (idealThreadCount : Int) : Nat :=
  size / threadsToUse idealThreadCount + 1

/-- The loop that fills chunks: from index i on, append allPaths.mid(i, chunkSize)
and advance i by chunkSize while i is below the size.  The first argument bounds
the number of iterations. -/
def chunksFrom (allPaths : List Path) (cs : Nat) : Nat → Nat → List (List Path)
  | 0, _ => []
  | fuel + 1, i =>
    if i < allPaths.length then
      (allPaths.drop i).take cs :: chunksFrom allPaths cs fuel (i + cs)
    else []

/-- The list chunks built by searchFileConcurrent. -/
def chunks (allPaths : List Path) (idealThreadCount : Int) : List (List Path) :=
  chunksFrom allPaths (chunkSize allPaths.length idealThreadCount) allPaths.length 0

/-! ## searchFileConcurrent: the parallel filter (mapFunc) -/

/-- The constant maxResults of searchFileConcurrent. -/
def maxResults : Nat := 500

/-- One running call of mapFunc: the not yet enumerated part of its chunk, the
list filtered, whether the loadRelaxed test at the loop head has been passed for
the next element, and whether the loop has been left. -/
structure MapTask where
  rest : List Path
  filtered : List Path
  checked : Bool
  finished : Bool
deriving DecidableEq, Repr

/-- A call of mapFunc on a chunk, before its first step. -/
def MapTask.start (chunk : List Path) : MapTask :=
  { rest := chunk, filtered := [], checked := false, finished := false }

/-- One atomic step of a mapFunc call against the shared counter foundCount:
either the loadRelaxed test at the loop head, or the file-name test of the next
element together with fetchAndAddRelaxed when it matches. -/
def MapTask.step (text : Path) (t : MapTask) (foundCount : Nat) : MapTask × Nat :=
  if t.finished then (t, foundCount)
  else
    match t.rest with
    | [] => ({ t with finished := true }, foundCount)
    | pah :: more =>
      if t.checked = false then
        if foundCount ≥ maxResults then ({ t with finished := true }, foundCount)
        else ({ t with checked := true }, foundCount)
      else if matchesQuery text pah then
        if foundCount < maxResults then
          ({ rest := more, filtered := t.filtered ++ [pah], checked := false,
             finished := false }, foundCount + 1)
        else ({ t with finished := true }, foundCount + 1)
      else
        ({ rest := more, filtered := t.filtered, checked := false, finished := false },
          foundCount)

/-- The task with number i takes one step. -/
def stepAt (text : Path) : Nat → List MapTask → Nat → List MapTask × Nat
  | _, [], c => ([], c)
  | 0, t :: ts, c => ((t.step text c).1 :: ts, (t.step text c).2)
  | i + 1, t :: ts, c => (t :: (stepAt text i ts c).1, (stepAt text i ts c).2)

/-- The tasks take steps in the order given by a schedule. -/
def runSchedule (text : Path) : List Nat → List MapTask × Nat → List MapTask × Nat
  | [], s => s
  | i :: sched, s => runSchedule text sched (stepAt text i s.1 s.2)

/-- A task takes n steps in a row. -/
def MapTask.steps (text : Path) : Nat → MapTask → Nat → MapTask × Nat
  | 0, t, c => (t, c)
  | n + 1, t, c => MapTask.steps text n (t.step text c).1 (t.step text c).2

/-- Every task that is still running is run to the end of its loop, one after the other. -/
def finishTasks (text : Path) : List MapTask → Nat → List MapTask × Nat
  | [], c => ([], c)
  | t :: ts, c =>
    let r := MapTask.steps text (2 * t.rest.length + 2) t c
    ((r.1 :: (finishTasks text ts r.2).1), (finishTasks text ts r.2).2)

/-- The results of the mapFunc calls, one per chunk and in chunk order, when the
calls interleave as the schedule says (calls still running when the schedule is
used up are completed afterwards).  Each call returns its list filtered reversed. -/
def mapped (text : Path) (chunkList : List (List Path)) (sched : List Nat) : List (List Path) :=
  let s := runSchedule text sched (chunkList.map MapTask.start, 0)
  (finishTasks text s.1 s.2).1.map (fun t => t.filtered.reverse)

/-! ## searchFileConcurrent: the reducer and the final sort -/

/-- The function reduceFunc: append the partial list, keep the first 50. -/
def reduceFunc (result partialList : List Path) : List Path :=
  if (result ++ partialList).length > 50 then (result ++ partialList).take 50
  else result ++ partialList

/-- The reduction of the partial lists in the order in which they arrive. -/
def reduceAll (partials : List (List Path)) : List Path :=
  partials.foldl reduceFunc []

/-- The list popular of getPriority. -/
def popular : List Path :=
  ["exe", "jpg", "jpeg", "png", "pdf", "docx", "txt", "xlsx", "pptx", "mp4", "mp3"].map
    String.toList

/-- The lambda getPriority of the final sort; isDir answers QFileInfo::isDir. -/
def getPriority (isDir : Path → Bool) (path : Path) : Nat :=
  if isDir path then 2
  else
    let ext := toLower (suffix path)
    if ext = "lnk".toList then 3
    else if popular.contains ext then 0
    else 1

/-- The comparison passed to sort: a goes before b. -/
def sortLess (isDir : Path → Bool) (a b : Path) : Bool :=
  getPriority isDir a < getPriority isDir b

/-- What std::sort guarantees of its output for the comparison sortLess: a
rearrangement of the input in which no later element goes before an earlier one.
The order among elements that compare equal is left open. -/
def IsSortOutput (isDir : Path → Bool) (input output : List Path) : Prop :=
  output.Perm input ∧ output.Pairwise (fun a b => sortLess isDir b a = false)

/-- One admissible sort: insertion by the priority number. -/
def sortResults (isDir : Path → Bool) (results : List Path) : List Path :=
  results.insertionSort (fun a b => getPriority isDir a ≤ getPriority isDir b)

/-- The lists searchFileConcurrent can return for a snapshot allPaths and a query
text: for some interleaving of the filter tasks and some arrival order of their
results at the reducer (UnorderedReduce), an output of the final sort. -/
def SearchReturns (isDir : Path → Bool) (allPaths : List Path) (text : Path)
    (idealThreadCount : Int) (r : List Path) : Prop :=
  ∃ sched merged, merged.Perm (mapped text (chunks allPaths idealThreadCount) sched) ∧
    IsSortOutput isDir (reduceAll merged) r

/-- The run of searchFileConcurrent in which the filter tasks run one after the
other, their results arrive in chunk order and the sort is sortResults. -/
def searchFileConcurrent (isDir : Path → Bool) (allPaths : List Path) (text : Path)
    (idealThreadCount : Int) : List Path :=
  sortResults isDir (reduceAll (mapped text (chunks allPaths idealThreadCount) []))

/-! ## Vocabulary for the invariants of the parallel filter -/

/-- What filtered becomes if the task enumerates the whole of its chunk. -/
def MapTask.goal (text : Path) (t : MapTask) : List Path :=
  t.filtered ++ t.rest.filter (matchesQuery text)

/-- A task that left its loop before the last match of its chunk did so with the
counter at maxResults or above. -/
def Settled (text : Path) (c : Nat) (t : MapTask) : Prop :=
  t.finished = true → t.rest.filter (matchesQuery text) ≠ [] → maxResults ≤ c

/-- What every run of steps of one task preserves. -/
structure TaskProgress (text : Path) (t : MapTask) (c : Nat) (t' : MapTask) (c' : Nat) :
    Prop where
  goal_eq : t'.goal text = t.goal text
  count : t'.filtered.length + min c maxResults = t.filtered.length + min c' maxResults
  mono : c ≤ c'
  settled : Settled text c t → Settled text c' t'

/-- An upper bound on the number of steps a task still takes. -/
def MapTask.fuel (t : MapTask) : Nat :=
  if t.finished then 0 else 2 * t.rest.length + (if t.checked then 1 else 2)

/-- The number of paths the tasks have appended to their lists so far. -/
def keptCount (ts : List MapTask) : Nat :=
  (ts.map (fun t => t.filtered.length)).sum

/-- What every run of steps of a list of tasks preserves. -/
structure Progress (text : Path) (ts : List MapTask) (c : Nat) (ts' : List MapTask)
    (c' : Nat) : Prop where
  goal_eq : ts'.map (MapTask.goal text) = ts.map (MapTask.goal text)
  count : keptCount ts' + min c maxResults = keptCount ts + min c' maxResults
  mono : c ≤ c'
  settled : (∀ t ∈ ts, Settled text c t) → ∀ t ∈ ts', Settled text c' t

/-- The tasks and the counter when all calls of mapFunc have returned. -/
def finalTasks (text : Path) (chunkList : List (List Path)) (sched : List Nat) :
    List MapTask × Nat :=
  finishTasks text (runSchedule text sched (chunkList.map MapTask.start, 0)).1
    (runSchedule text sched (chunkList.map MapTask.start, 0)).2

/-! ## The items table and the snapshot read by the search -/

/-- A row of the items table: path (unique), type and priority. -/
structure Item where
  path : Path
  type : List Char
  priority : Int
deriving DecidableEq, Repr

/-- The order of the BINARY collation on texts: character by character, a proper
beginning first. -/
def pathLe : Path → Path → Bool
  | [], _ => true
  | _ :: _, [] => false
  | a :: as, b :: bs =>
    if a.toNat < b.toNat then true
    else if b.toNat < a.toNat then false
    else pathLe as bs

/-- The row order of ORDER BY priority DESC, path ASC. -/
def rowBefore (a b : Item) : Bool :=
  decide (a.priority > b.priority) || (decide (a.priority = b.priority) && pathLe a.path b.path)

/-- The result of SELECT path FROM items ORDER BY priority DESC, path ASC. -/
def snapshot (items : List Item) : List Path :=
  (items.insertionSort (fun a b => rowBefore a b = true)).map (fun it => it.path)

/-- The presentation buckets of the search results. -/
inductive Bucket where
  | directory
  | popularFile
  | shortcut
  | generic
deriving DecidableEq, Repr

/-- The bucket of a path: a directory, else a shortcut file (extension lnk), else
a file with one of the popular extensions, else a file with a generic extension. -/
def bucketOf (isDir : Path → Bool) (p : Path) : Bucket :=
  if isDir p then Bucket.directory
  else if toLower (suffix p) = "lnk".toList then Bucket.shortcut
  else if toLower (suffix p) ∈ popular then Bucket.popularFile
  else Bucket.generic

/-- The place of a bucket in the order the sort produces: popular files, generic
files, directories, shortcuts. -/
def Bucket.rank : Bucket → Nat
  | Bucket.popularFile => 0
  | Bucket.generic => 1
  | Bucket.directory => 2
  | Bucket.shortcut => 3

/-- An index with a directory, a popular file, a shortcut and a generic file that
all match the query doc. -/
def bucketIndex : List Item :=
  [ { path := "C:\\Users\\a\\docs".toList, type := "d".toList, priority := 0 },
    { path := "C:\\Users\\a\\doc.txt".toList, type := "f".toList, priority := 0 },
    { path := "C:\\Users\\a\\doc.lnk".toList, type := "f".toList, priority := 0 },
    { path := "C:\\Users\\a\\doc.dat".toList, type := "f".toList, priority := 0 } ]

/-- The file system of bucketIndex: only docs is a directory. -/
def bucketIsDir (p : Path) : Bool := decide (p = "C:\\Users\\a\\docs".toList)

/-- The only list the search returns for bucketIndex and the query doc. -/
def bucketResult : List Path :=
  [ "C:\\Users\\a\\doc.txt".toList, "C:\\Users\\a\\doc.dat".toList,
    "C:\\Users\\a\\docs".toList, "C:\\Users\\a\\doc.lnk".toList ]

/-! ## A snapshot with 1000 matching paths -/

/-- A snapshot of 1000 paths doc0 to doc999, all of which match the query doc. -/
def thousandDocs : List Path :=
  (List.range 1000).map (fun i => "C:\\doc".toList ++ Nat.toDigits 10 i)

/-! ## An index with 51 matching paths -/

/-- The path C:\docNN for a two-digit number NN. -/
def docPath (i : Nat) : Path :=
  "C:\\doc".toList ++ [Nat.digitChar (i / 10), Nat.digitChar (i % 10)]

/-- An index of 51 files C:\doc00 to C:\doc50, all of priority 0. -/
def fiftyOneIndex : List Item :=
  (List.range 51).map (fun i => { path := docPath i, type := "f".toList, priority := 0 })

/-- The paths kept by the map and reduce steps of a run. -/
def keptPaths (merged : List (List Path)) : List Path := reduceAll merged

/-! ## The bulk crawler: processDirectory and batchInsertToDB -/

/-- The value INVALID_FILE_ATTRIBUTES. -/
def INVALID_FILE_ATTRIBUTES : Nat := 0xFFFFFFFF

/-- The value FILE_ATTRIBUTE_DIRECTORY. -/
def FILE_ATTRIBUTE_DIRECTORY : Nat := 0x10

/-- The file system as the crawler sees it: the entry names opendir and readdir
give for a directory (none when opendir fails) and the attribute word that
GetFileAttributes gives for a path. -/
structure FileSystem where
  readdir : Path → Option (List Path)
  attributes : Path → Nat

/-- The struct FileItem of the crawler. -/
structure FileItem where
  path : Path
  type : List Char
  priority : Int
deriving DecidableEq, Repr

/-- The list highPriorityKeywords of getPriorityFromPath. -/
def highPriorityKeywords : List Path :=
  ["\\documents", "\\desktop", "\\downloads", "\\pictures", "\\videos", "\\music", "d:\\",
    "e:\\", "f:\\", "g:\\", "h:\\", "i:\\", "j:\\", "k:\\", "x:\\", "y:\\", "z:\\"].map
    String.toList

/-- The function getPriorityFromPath: 1 when the lower-cased path contains one of
the keywords, else 0. -/
def getPriorityFromPath (path : Path) : Int :=
  let lowercasePath := path.map Char.toLower
  if highPriorityKeywords.any (fun keyword => hasInfix keyword lowercasePath) then 1 else 0

/-- The test that makes processDirectory skip an entry: its name is ".", ".." or
contains the character $. -/
def skipEntry (name : Path) : Bool :=
  name == ".".toList || name == "..".toList || name.contains '$'

/-- The string newPath = path + "\\" + d_name of processDirectory. -/
def newPath (path name : Path) : Path :=
  path ++ "\\".toList ++ name

/-- The value isDir of processDirectory for an attribute word. -/
def attrIsDir (attr : Nat) : Bool :=
  attr != INVALID_FILE_ATTRIBUTES && (attr &&& FILE_ATTRIBUTE_DIRECTORY) != 0

/-- The readdir loop of processDirectory over the entry names of one directory:
the records appended to itms and the directories enqueued, in order. -/
def processEntries (fs : FileSystem) (path : Path) : List Path → List FileItem × List Path
  | [] => ([], [])
  | name :: more =>
    if skipEntry name then processEntries fs path more
    else
      let isDir := attrIsDir (fs.attributes (newPath path name))
      ({ path := newPath path name, type := if isDir then "d".toList else "f".toList,
         priority := getPriorityFromPath (newPath path name) } ::
          (processEntries fs path more).1,
        if isDir then newPath path name :: (processEntries fs path more).2
        else (processEntries fs path more).2)

/-- The function processDirectory: nothing when the directory cannot be opened. -/
def processDirectory (fs : FileSystem) (path : Path) : List FileItem × List Path :=
  match fs.readdir path with
  | none => ([], [])
  | some names => processEntries fs path names

/-- The root path traverseAllDrives enqueues for a drive: the upper-cased letter,
a colon and a backslash. -/
def rootPathOf (driveLetter : Char) : Path :=
  [driveLetter.toUpper] ++ ":\\".toList

/-- The path the crawler builds for the entry reached from a root through the
given entry names: one newPath per level. -/
def crawlerPath (root : Path) (names : List Path) : Path :=
  names.foldl newPath root

/-- The statement INSERT OR IGNORE INTO items (path, type, priority): no effect
when a row with the path exists. -/
def insertOrIgnore (items : List Item) (row : FileItem) : List Item :=
  if items.any (fun it => it.path == row.path) then items
  else items ++ [{ path := row.path, type := row.type, priority := row.priority }]

/-- The function batchInsertToDB: one INSERT OR IGNORE per staged record, in order. -/
def batchInsertToDB (items : List Item) (staged : List FileItem) : List Item :=
  staged.foldl insertOrIgnore items

/-! ## The change watcher: MonitorDrive and the insert worker -/

/-- The enum FileStatus. -/
inductive FileStatus where
  | Created
  | Deleted
  | Renamed
deriving DecidableEq, Repr

/-- The struct FileChange: a staged creation. -/
structure FileChange where
  path : Path
  status : FileStatus
  type : Char
  timestamp : Int
deriving DecidableEq, Repr

/-- The Action field of a FILE_NOTIFY_INFORMATION record. -/
inductive Action where
  | added
  | removed
  | modified
  | renamedOldName
  | renamedNewName
deriving DecidableEq, Repr

/-- A FILE_NOTIFY_INFORMATION record: the action and the name relative to the
watched root. -/
structure NotifyRecord where
  action : Action
  relative : Path
deriving DecidableEq, Repr

/-- The function DetectFileType. -/
def DetectFileType (attributes : Path → Nat) (path : Path) : Char :=
  if attributes path = INVALID_FILE_ATTRIBUTES then '?'
  else if (attributes path &&& FILE_ATTRIBUTE_DIRECTORY) != 0 then 'd' else 'f'

/-- What the watcher threads and the insert worker share: the items table and
the vector g_pendingInserts. -/
structure WatchState where
  items : List Item
  pending : List FileChange
deriving DecidableEq, Repr

/-- The statement DELETE FROM items WHERE path = :path. -/
def deleteByPath (items : List Item) (path : Path) : List Item :=
  items.filter (fun it => it.path != path)

/-- The statement INSERT OR REPLACE INTO items (path, type): a row with the path
is removed, the new row gets the default priority 0. -/
def insertOrReplace (items : List Item) (path : Path) (type : List Char) : List Item :=
  items.filter (fun it => it.path != path) ++ [{ path := path, type := type, priority := 0 }]

/-- The switch of MonitorDrive for one record; the second component of the state
is the local variable oldName. -/
def MonitorDrive.handleRecord (attributes : Path → Nat) (now : Int) (rootPath : Path)
    (s : WatchState × Path) (record : NotifyRecord) : WatchState × Path :=
  let fullPath := rootPath ++ record.relative
  match record.action with
  | Action.added =>
    ({ items := s.1.items,
       pending := s.1.pending ++
        [{ path := fullPath, status := FileStatus.Created,
           type := DetectFileType attributes fullPath, timestamp := now }] }, s.2)
  | Action.removed =>
    ({ items := deleteByPath s.1.items fullPath, pending := s.1.pending }, s.2)
  | Action.renamedOldName => (s.1, fullPath)
  | Action.renamedNewName =>
    ({ items := insertOrReplace (deleteByPath s.1.items s.2) fullPath
          ([DetectFileType attributes fullPath]),
       pending := s.1.pending }, s.2)
  | Action.modified => s

/-- The handling of one buffer returned by ReadDirectoryChangesW: oldName starts
empty and the records are handled in order. -/
def MonitorDrive.handleBatch (attributes : Path → Nat) (now : Int) (rootPath : Path)
    (st : WatchState) (records : List NotifyRecord) : WatchState :=
  (records.foldl (MonitorDrive.handleRecord attributes now rootPath) (st, [])).1

/-- The scan of g_pendingInserts in the insert worker: the entries whose age is
at least 15000 ms are moved to toInsert, the others stay. -/
def StartInsertWorker.scanPending (now : Int) :
    List FileChange → List FileChange × List FileChange
  | [] => ([], [])
  | change :: more =>
    if now - change.timestamp ≥ 15000 then
      (change :: (StartInsertWorker.scanPending now more).1,
        (StartInsertWorker.scanPending now more).2)
    else
      ((StartInsertWorker.scanPending now more).1,
        change :: (StartInsertWorker.scanPending now more).2)

/-- One iteration of the insert worker loop at time now: the scan, then one
INSERT OR REPLACE per moved entry. -/
def StartInsertWorker.tick (now : Int) (st : WatchState) : WatchState :=
  { items := (StartInsertWorker.scanPending now st.pending).1.foldl
      (fun db change => insertOrReplace db change.path [change.type]) st.items,
    pending := (StartInsertWorker.scanPending now st.pending).2 }

/-- The paths stored in the items table. -/
def paths (items : List Item) : List Path := items.map (fun it => it.path)

/-- The name the watcher receives for the entry reached from the root through
the given entry names: the names joined by backslashes. -/
def relativeName : List Path → Path
  | [] => []
  | [name] => name
  | name :: more => name ++ "\\".toList ++ relativeName more

/-! ## The staleness policy: shouldScan -/

/-- A row of the scan_metadata table. -/
structure ScanMetadata where
  id : Int
  last_scan_time : List Char
  last_boot_time : List Char
  scan_status : List Char
deriving DecidableEq, Repr

/-- The function shouldScan.  The first argument is the scan_metadata table when
db.open() succeeds and none when it fails; the second is getSystemBootTime(). -/
def shouldScan (db : Option (List ScanMetadata)) (currentBootTime : List Char) : Bool :=
  match db with
  | none => true
  | some scan_metadata =>
    match scan_metadata.find? (fun row => row.id == 1) with
    | some row =>
      if currentBootTime ≠ row.last_boot_time then true
      else if row.scan_status ≠ "complete".toList then true
      else false
    | none => true

/-! ## A volume with one directory -/

/-- A file system in which C:\ holds the single directory Users. -/
def usersFs : FileSystem :=
  { readdir := fun p => if p = "C:\\".toList then some ["Users".toList] else none,
    attributes := fun p =>
      if p = "C:\\Users".toList ∨ p = "C:\\\\Users".toList then FILE_ATTRIBUTE_DIRECTORY
      else INVALID_FILE_ATTRIBUTES }

/-! ## Sample watcher inputs and states -/

/-- The attribute lookup in which every path is a directory. -/
def allDirectories : Path → Nat := fun _ => FILE_ATTRIBUTE_DIRECTORY

/-- A watcher state with two indexed files and one staged creation. -/
def sampleState : WatchState :=
  { items := [{ path := "C:\\a.txt".toList, type := "f".toList, priority := 1 },
              { path := "C:\\b.txt".toList, type := "f".toList, priority := 0 }],
    pending := [{ path := "C:\\c.txt".toList, status := FileStatus.Created, type := 'f',
                  timestamp := 100 }] }

/-- A watcher state with one staged creation older than the grace window at time
20000 and one younger. -/
def stagedState : WatchState :=
  { items := [{ path := "C:\\old.txt".toList, type := "f".toList, priority := 1 }],
    pending := [{ path := "C:\\old.txt".toList, status := FileStatus.Created, type := 'f',
                  timestamp := 5000 },
                { path := "C:\\new.txt".toList, status := FileStatus.Created, type := 'f',
                  timestamp := 5001 }] }

/-! ## Sample scan_metadata tables -/

/-- The scan_metadata table after the recorded boot time of the row with id 1 has
been changed to the given text; everything else is left as it is. -/
def setRecordedBootTime (rows : List ScanMetadata) (bootTime : List Char) :
    List ScanMetadata :=
  rows.map (fun row => if row.id == 1 then { row with last_boot_time := bootTime } else row)

/-- A scan_metadata table as traverseAll leaves it after a completed crawl. -/
def completedScan : List ScanMetadata :=
  [{ id := 1, last_scan_time := "2025-01-02T08:00:00Z".toList,
     last_boot_time := "2025-01-02T07:30:00Z".toList, scan_status := "complete".toList }]

/-! ## Sample crawler batches -/

/-- The row of the items table written for a staged record. -/
def FileItem.toItem (row : FileItem) : Item :=
  { path := row.path, type := row.type, priority := row.priority }

/-- An index with one row and a batch that holds that path again, with another
type and priority, and one new path. -/
def sampleBatchIndex : List Item :=
  [{ path := "C:\\\\a".toList, type := "d".toList, priority := 1 }]

/-- The batch staged against sampleBatchIndex. -/
def sampleBatch : List FileItem :=
  [{ path := "C:\\\\a".toList, type := "f".toList, priority := 0 },
   { path := "C:\\\\b".toList, type := "f".toList, priority := 0 }]

/-! ## The priority rule as the specification words it -/

/-- The user-content folder names of the specification. -/
def userFolderNames : List Path :=
  ["documents", "desktop", "downloads", "pictures", "videos", "music"].map String.toList

/-- Whether a path starts with a drive letter other than the system drive C. -/
def onNonSystemDrive (path : Path) : Bool :=
  match path with
  | letter :: ':' :: _ => letter.isAlpha && letter.toLower != 'c'
  | _ => false

/-- The priority as the specification words it: 1 when the lower-cased path
contains one of the folder names or the path is on a drive other than C, else 0. -/
def specPriority (path : Path) : Int :=
  if userFolderNames.any (fun name => hasInfix name (toLower path)) || onNonSystemDrive path
  then 1 else 0

/-! ## The operations that change the items table -/

/-- An operation of the program on the index: the batched write of the crawler
for the records that processDirectory stages for some directories, the handling
of one buffer of change records by a watcher thread, and one tick of the insert
worker. -/
inductive IndexOp where
  | crawlerBatch (fs : FileSystem) (dirs : List Path)
  | watcherBatch (attributes : Path → Nat) (now : Int) (rootPath : Path)
      (records : List NotifyRecord)
  | promotionTick (now : Int)

/-- The records staged by processDirectory for a list of directories. -/
def stagedFor (fs : FileSystem) (dirs : List Path) : List FileItem :=
  (dirs.map (fun dir => (processDirectory fs dir).1)).flatten

/-- The effect of an operation on the items table and the staging vector. -/
def IndexOp.apply (st : WatchState) : IndexOp → WatchState
  | IndexOp.crawlerBatch fs dirs =>
    { items := batchInsertToDB st.items (stagedFor fs dirs), pending := st.pending }
  | IndexOp.watcherBatch attributes now rootPath records =>
    MonitorDrive.handleBatch attributes now rootPath st records
  | IndexOp.promotionTick now => StartInsertWorker.tick now st

/-- The value debounceDelayMs. -/
def debounceDelayMs : Int := 2000

/-- The test QChar::isSpace: the white-space control characters and the Unicode
separators. -/
def isSpace (c : Char) : Bool :=
  let n := c.toNat
  (9 ≤ n && n ≤ 13) || n == 0x20 || n == 0x85 || n == 0xA0 || n == 0x1680 ||
    (0x2000 ≤ n && n ≤ 0x200A) || n == 0x2028 || n == 0x2029 || n == 0x202F ||
    n == 0x205F || n == 0x3000

/-- The function QString::trimmed: white space removed from both ends. -/
def trimmed (s : Path) : Path :=
  ((s.dropWhile isSpace).reverse.dropWhile isSpace).reverse

/-- The function QString::length: the number of UTF-16 code units. -/
def qLength (s : Path) : Nat :=
  (s.map (fun c => if c.toNat < 0x10000 then 1 else 2)).sum

/-- The texts shown by statusLabel. -/
inductive StatusLabel where
  | scanning
  | searching
  | lastScanned
deriving DecidableEq, Repr

/-- The state the handlers of the search box read and write: the text of
inputField, the expiry time of debounceTimer while it is active, lastResults,
whether suggestionList is shown, statusLabel, the query of the search running
in searchWatcher, and the queries for which searchFileConcurrent has been
started so far, oldest first. -/
structure SearchUi where
  text : Path
  timer : Option Int
  lastResults : List Path
  listVisible : Bool
  status : StatusLabel
  running : Option Path
  launched : List Path
deriving DecidableEq, Repr

/-- The search box when the window has been built. -/
def initialUi : SearchUi :=
  { text := [], timer := none, lastResults := [], listVisible := false,
    status := StatusLabel.scanning, running := none, launched := [] }

/-- The handler of QLineEdit::textChanged, called at time now with the new text. -/
def textChanged (now : Int) (text : Path) (ui : SearchUi) : SearchUi :=
  if qLength (trimmed text) < 3 then
    { text := text, timer := none, lastResults := [], listVisible := false,
      status := StatusLabel.lastScanned, running := ui.running, launched := ui.launched }
  else
    { text := text, timer := some (now + debounceDelayMs), lastResults := [],
      listVisible := ui.listVisible, status := StatusLabel.searching, running := none,
      launched := ui.launched }

/-- The handler of the timeout signal of debounceTimer (a single-shot timer). -/
def debounceTimeout (ui : SearchUi) : SearchUi :=
  if qLength (trimmed ui.text) < 3 then
    { ui with timer := none, listVisible := false }
  else if (trimmed ui.text).isEmpty then
    { ui with timer := none, running := none }
  else
    { ui with timer := none, running := some (trimmed ui.text),
              launched := ui.launched ++ [trimmed ui.text] }

/-- The handler of the finished signal of searchWatcher. -/
def searchFinished (results : List Path) (ui : SearchUi) : SearchUi :=
  { ui with lastResults := results, listVisible := true, status := StatusLabel.lastScanned,
            running := none }

/-- An event of the search box. -/
inductive UiEvent where
  | textChanged (now : Int) (text : Path)
  | timeout
  | finished (results : List Path)
deriving DecidableEq, Repr

/-- The effect of an event: the timer fires only while it is active and a search
finishes only while one is running. -/
def UiEvent.apply (ui : SearchUi) : UiEvent → SearchUi
  | UiEvent.textChanged now text => Vulture.textChanged now text ui
  | UiEvent.timeout => if ui.timer.isSome then debounceTimeout ui else ui
  | UiEvent.finished results => if ui.running.isSome then searchFinished results ui else ui

/-- The search box after a sequence of events. -/
def runUi (events : List UiEvent) (ui : SearchUi) : SearchUi :=
  events.foldl UiEvent.apply ui

/-- Time passes until now: debounceTimer fires if its expiry time has come. -/
def advance (now : Int) (ui : SearchUi) : SearchUi :=
  match ui.timer with
  | some expiry => if expiry ≤ now then debounceTimeout ui else ui
  | none => ui

/-- The text changes at a given time: first the time passes, then textChanged runs. -/
def typeText (ui : SearchUi) (change : Int × Path) : SearchUi :=
  textChanged change.1 change.2 (advance change.1 ui)

/-- The search box at time tEnd after the given text changes, from initialUi. -/
def session (changes : List (Int × Path)) (tEnd : Int) : SearchUi :=
  advance tEnd (changes.foldl typeText initialUi)

/-- The change b comes after the change a and, if a started the debounce timer,
before that interval has elapsed. -/
def followsRapidly (a b : Int × Path) : Bool :=
  decide (a.1 ≤ b.1) &&
    (decide (qLength (trimmed a.2) < 3) || decide (b.1 < a.1 + debounceDelayMs))

/-- A burst of text changes: each change follows the previous one rapidly. -/
def rapid (changes : List (Int × Path)) : Prop :=
  List.Chain' (fun a b => followsRapidly a b = true) changes

/-! ## The worker pool of the crawler: workerThread and enqueueDirectory -/

/-- Where a worker thread is: at cv.wait, inside processDirectory (between its
two locked blocks), or returned. -/
inductive WorkerState where
  | waiting
  | working
  | exited
deriving DecidableEq, Repr

/-- The shared variables taskQueue, activeWorkers and done, and the place of
each worker thread. -/
structure Pool where
  taskQueue : List Path
  activeWorkers : Int
  done : Bool
  workers : List WorkerState
deriving DecidableEq, Repr

/-- An atomic step of a worker thread: it leaves cv.wait with a task, it leaves
cv.wait and returns, it calls enqueueDirectory from inside processDirectory, or
it runs the locked block after processDirectory. -/
inductive PoolEvent where
  | pop (i : Nat)
  | exit (i : Nat)
  | enqueue (i : Nat) (path : Path)
  | finish (i : Nat)
deriving DecidableEq, Repr

/-- The effect of a step, none when the worker cannot take it in this state. -/
def Pool.step (s : Pool) : PoolEvent → Option Pool
  | PoolEvent.pop i =>
    if s.workers[i]? = some WorkerState.waiting then
      match s.taskQueue with
      | [] => none
      | _ :: rest =>
        some { taskQueue := rest, activeWorkers := s.activeWorkers + 1, done := s.done,
               workers := s.workers.set i WorkerState.working }
    else none
  | PoolEvent.exit i =>
    if s.workers[i]? = some WorkerState.waiting ∧ s.done = true ∧ s.taskQueue = [] then
      some { s with workers := s.workers.set i WorkerState.exited }
    else none
  | PoolEvent.enqueue i path =>
    if s.workers[i]? = some WorkerState.working then
      some { s with taskQueue := s.taskQueue ++ [path] }
    else none
  | PoolEvent.finish i =>
    if s.workers[i]? = some WorkerState.working then
      some { taskQueue := s.taskQueue, activeWorkers := s.activeWorkers - 1,
             done := if s.taskQueue = [] ∧ s.activeWorkers - 1 = 0 then true else s.done,
             workers := s.workers.set i WorkerState.waiting }
    else none

/-- The pool when traverseAllDrives has enqueued the roots and started the threads. -/
def Pool.start (roots : List Path) (numThreads : Nat) : Pool :=
  { taskQueue := roots, activeWorkers := 0, done := false,
    workers := List.replicate numThreads WorkerState.waiting }

/-- The pool after a sequence of steps, none when one of them cannot be taken. -/
def Pool.run (s : Pool) : List PoolEvent → Option Pool
  | [] => some s
  | ev :: more =>
    match s.step ev with
    | some s' => Pool.run s' more
    | none => none

/-- The number of workers inside processDirectory. -/
def Pool.busy (s : Pool) : Nat := s.workers.count WorkerState.working

/-- The rendezvous invariant: activeWorkers counts the workers inside
processDirectory, and done is set only with an empty queue and no such worker. -/
def Pool.Rendezvous (s : Pool) : Prop :=
  s.activeWorkers = s.busy ∧ (s.done = true → s.taskQueue = [] ∧ s.activeWorkers = 0)

/-! ## The crawl as a worklist traversal -/

/-- The loop of workerThread run by one worker: while the queue is not empty,
pop its front, run processDirectory on it, append the staged records to itms
and the enqueued directories to the back of the queue.  The first argument
bounds the number of iterations; the result is none when it is used up with
tasks still queued. -/
def crawlLoop (fs : FileSystem) : Nat → List Path → List FileItem → Option (List FileItem)
  | _, [], itms => some itms
  | 0, _ :: _, _ => none
  | fuel + 1, task :: rest, itms =>
    crawlLoop fs fuel (rest ++ (processDirectory fs task).2)
      (itms ++ (processDirectory fs task).1)

/-- The crawl from the seeded roots with an empty list itms. -/
def crawl (fs : FileSystem) (fuel : Nat) (roots : List Path) : Option (List FileItem) :=
  crawlLoop fs fuel roots []

/-- The directories enqueued by processDirectory for a list of directories. -/
def childrenOf (fs : FileSystem) (dirs : List Path) : List Path :=
  (dirs.map (fun dir => (processDirectory fs dir).2)).flatten

/-- The directories enqueued at a given depth below the given ones. -/
def levelAt (fs : FileSystem) : Nat → List Path → List Path
  | 0, dirs => dirs
  | depth + 1, dirs => levelAt fs depth (childrenOf fs dirs)

/-- The directories down to a given depth, level after level. -/
def visitOrder (fs : FileSystem) : Nat → List Path → List Path
  | 0, dirs => dirs
  | depth + 1, dirs => dirs ++ visitOrder fs depth (childrenOf fs dirs)

/-- The record staged for the entry with a given name in a given directory. -/
def recordFor (fs : FileSystem) (dir name : Path) : FileItem :=
  { path := newPath dir name,
    type := if attrIsDir (fs.attributes (newPath dir name)) then "d".toList else "f".toList,
    priority := getPriorityFromPath (newPath dir name) }

/-- The entry names processDirectory does not skip in a directory: none when the
directory cannot be opened. -/
def entriesOf (fs : FileSystem) (dir : Path) : List Path :=
  match fs.readdir dir with
  | none => []
  | some names => names.filter (fun n => !skipEntry n)

/-- The directories the crawl descends into: the roots, and every entry of such
a directory that is listed when the directory is read, is not skipped for its
name, and is a directory by its attributes. -/
inductive Visited (fs : FileSystem) (roots : List Path) : Path → Prop where
  | root (r : Path) : r ∈ roots → Visited fs roots r
  | child (dir : Path) (names : List Path) (name : Path) :
      Visited fs roots dir → fs.readdir dir = some names → name ∈ names →
      skipEntry name = false → attrIsDir (fs.attributes (newPath dir name)) = true →
      Visited fs roots (newPath dir name)

/-- A volume C:\ with the entries ".", "..", the directory Users (holding the
file a.txt), the skipped $Recycle.Bin, the file pagefile.sys and the directory
Locked, which cannot be opened. -/
def sampleVolume : FileSystem :=
  { readdir := fun p =>
      if p = "C:\\".toList then
        some [".".toList, "..".toList, "Users".toList, "$Recycle.Bin".toList,
              "pagefile.sys".toList, "Locked".toList]
      else if p = "C:\\\\Users".toList then some [".".toList, "..".toList, "a.txt".toList]
      else none,
    attributes := fun p =>
      if p = "C:\\\\Users".toList ∨ p = "C:\\\\Locked".toList ∨ p = "C:\\\\$Recycle.Bin".toList
      then FILE_ATTRIBUTE_DIRECTORY
      else if p = "C:\\\\pagefile.sys".toList ∨ p = "C:\\\\Users\\a.txt".toList then 0x20
      else INVALID_FILE_ATTRIBUTES }

/-! ## Facts about chunking -/

theorem chunkSize_pos (size : Nat) (idealThreadCount : Int) :
    0 < chunkSize size idealThreadCount := by
  unfold chunkSize
  exact Nat.succ_pos _

theorem flatten_chunksFrom (allPaths : List Path) (cs : Nat) (hcs : 0 < cs) :
    ∀ fuel i, allPaths.length ≤ i + fuel →
      (chunksFrom allPaths cs fuel i).flatten = allPaths.drop i := by
  intro fuel
  induction fuel with
  | zero =>
    intro i h
    have h2 : allPaths.drop i = [] := List.drop_eq_nil_of_le (by omega)
    simp [chunksFrom, h2]
  | succ n ih =>
    intro i h
    simp only [chunksFrom]
    split_ifs with hi
    · rw [List.flatten_cons, ih (i + cs) (by omega)]
      have h3 : allPaths.drop (i + cs) = (allPaths.drop i).drop cs := by
        rw [List.drop_drop, Nat.add_comm]
      rw [h3]
      exact List.take_append_drop cs (allPaths.drop i)
    · have h2 : allPaths.drop i = [] := List.drop_eq_nil_of_le (by omega)
      simp [h2]

/-- The chunks are consecutive pieces of the snapshot: put together they give it back. -/
theorem flatten_chunks (allPaths : List Path) (idealThreadCount : Int) :
    (chunks allPaths idealThreadCount).flatten = allPaths := by
  unfold chunks
  rw [flatten_chunksFrom allPaths _ (chunkSize_pos _ _) _ 0 (by omega)]
  simp

/-! ## Facts about the parallel filter -/

theorem taskProgress_refl (text : Path) (t : MapTask) (c : Nat) :
    TaskProgress text t c t c :=
  ⟨rfl, rfl, Nat.le_refl _, id⟩

theorem taskProgress_trans {text : Path} {t1 t2 t3 : MapTask} {c1 c2 c3 : Nat}
    (h1 : TaskProgress text t1 c1 t2 c2) (h2 : TaskProgress text t2 c2 t3 c3) :
    TaskProgress text t1 c1 t3 c3 := by
  refine ⟨h2.goal_eq.trans h1.goal_eq, ?_, Nat.le_trans h1.mono h2.mono,
    fun h => h2.settled (h1.settled h)⟩
  have a := h1.count
  have b := h2.count
  omega

theorem step_progress (text : Path) (t : MapTask) (c : Nat) :
    TaskProgress text t c (t.step text c).1 (t.step text c).2 := by
  rcases t with ⟨rest, filtered, checked, finished⟩
  cases finished
  · cases rest with
    | nil =>
      refine ⟨by simp [MapTask.step, MapTask.goal], by simp [MapTask.step],
        by simp [MapTask.step], ?_⟩
      intro _ _ h
      simp [MapTask.step] at h
    | cons pah more =>
      cases checked
      · by_cases hc : c ≥ maxResults
        · refine ⟨by simp [MapTask.step, MapTask.goal, hc], by simp [MapTask.step, hc],
            by simp [MapTask.step, hc], ?_⟩
          intro _ _ _
          simp [MapTask.step, hc]
        · refine ⟨by simp [MapTask.step, MapTask.goal, hc], by simp [MapTask.step, hc],
            by simp [MapTask.step, hc], ?_⟩
          intro _ h
          simp [MapTask.step, hc] at h
      · by_cases hm : matchesQuery text pah = true
        · by_cases hc : c < maxResults
          · refine ⟨by simp [MapTask.step, MapTask.goal, hc, hm], ?_,
              by simp [MapTask.step, hc, hm], ?_⟩
            · simp only [MapTask.step, hc, hm]
              simp
              unfold maxResults at hc ⊢
              omega
            · intro _ h
              simp [MapTask.step, hc, hm] at h
          · refine ⟨by simp [MapTask.step, MapTask.goal, hc, hm], ?_,
              by simp [MapTask.step, hc, hm], ?_⟩
            · simp only [MapTask.step, hc, hm]
              simp
              unfold maxResults at hc ⊢
              omega
            · intro _ _ _
              simp only [MapTask.step, hc, hm]
              simp
              omega
        · refine ⟨by simp [MapTask.step, MapTask.goal, hm], by simp [MapTask.step, hm],
            by simp [MapTask.step, hm], ?_⟩
          intro _ h
          simp [MapTask.step, hm] at h
  · have h : (MapTask.step text ⟨rest, filtered, checked, true⟩ c) =
        (⟨rest, filtered, checked, true⟩, c) := by simp [MapTask.step]
    rw [h]
    exact taskProgress_refl text _ c

theorem steps_progress (text : Path) :
    ∀ (n : Nat) (t : MapTask) (c : Nat),
      TaskProgress text t c (MapTask.steps text n t c).1 (MapTask.steps text n t c).2 := by
  intro n
  induction n with
  | zero => intro t c; exact taskProgress_refl text t c
  | succ n ih =>
    intro t c
    exact taskProgress_trans (step_progress text t c) (ih _ _)

theorem step_fuel (text : Path) (t : MapTask) (c : Nat) (h : t.finished = false) :
    (t.step text c).1.fuel < t.fuel := by
  rcases t with ⟨rest, filtered, checked, finished⟩
  simp only at h
  subst h
  cases rest with
  | nil => cases checked <;> simp [MapTask.step, MapTask.fuel]
  | cons pah more =>
    cases checked
    · by_cases hc : c ≥ maxResults <;> simp [MapTask.step, MapTask.fuel, hc]
    · by_cases hm : matchesQuery text pah = true
      · by_cases hc : c < maxResults
        · simp [MapTask.step, MapTask.fuel, hc, hm]
          omega
        · simp [MapTask.step, MapTask.fuel, hc, hm]
      · simp [MapTask.step, MapTask.fuel, hm]
        omega

theorem steps_finished (text : Path) :
    ∀ (n : Nat) (t : MapTask) (c : Nat), t.fuel ≤ n →
      (MapTask.steps text n t c).1.finished = true := by
  intro n
  induction n with
  | zero =>
    intro t c h
    cases hf : t.finished with
    | true => simp [MapTask.steps, hf]
    | false =>
      exfalso
      unfold MapTask.fuel at h
      rw [hf] at h
      simp at h
      cases hck : t.checked <;> simp [hck] at h
  | succ n ih =>
    intro t c h
    simp only [MapTask.steps]
    apply ih
    cases hf : t.finished with
    | true =>
      have : (t.step text c).1 = t := by simp [MapTask.step, hf]
      rw [this]
      unfold MapTask.fuel
      simp [hf]
    | false =>
      have := step_fuel text t c hf
      omega

theorem fuel_le (t : MapTask) : t.fuel ≤ 2 * t.rest.length + 2 := by
  unfold MapTask.fuel
  split_ifs <;> omega

theorem settled_mono {text : Path} {c c' : Nat} {t : MapTask}
    (h : Settled text c t) (hc : c ≤ c') : Settled text c' t :=
  fun hf hr => Nat.le_trans (h hf hr) hc

theorem progress_refl (text : Path) (ts : List MapTask) (c : Nat) :
    Progress text ts c ts c :=
  ⟨rfl, rfl, Nat.le_refl _, id⟩

theorem progress_trans {text : Path} {t1 t2 t3 : List MapTask} {c1 c2 c3 : Nat}
    (h1 : Progress text t1 c1 t2 c2) (h2 : Progress text t2 c2 t3 c3) :
    Progress text t1 c1 t3 c3 := by
  refine ⟨h2.goal_eq.trans h1.goal_eq, ?_, Nat.le_trans h1.mono h2.mono,
    fun h => h2.settled (h1.settled h)⟩
  have a := h1.count
  have b := h2.count
  omega

theorem progress_head {text : Path} {t t' : MapTask} {c c' : Nat} (ts : List MapTask)
    (h : TaskProgress text t c t' c') : Progress text (t :: ts) c (t' :: ts) c' := by
  refine ⟨by simp [h.goal_eq], ?_, h.mono, ?_⟩
  · have a := h.count
    simp only [keptCount, List.map_cons, List.sum_cons]
    omega
  · intro hs u hu
    rcases List.mem_cons.mp hu with rfl | hu
    · exact h.settled (hs _ (List.mem_cons_self _ _))
    · exact settled_mono (hs _ (List.mem_cons_of_mem _ hu)) h.mono

theorem progress_tail {text : Path} {ts ts' : List MapTask} {c c' : Nat} (t : MapTask)
    (h : Progress text ts c ts' c') : Progress text (t :: ts) c (t :: ts') c' := by
  refine ⟨by simp [h.goal_eq], ?_, h.mono, ?_⟩
  · have a := h.count
    simp only [keptCount, List.map_cons, List.sum_cons] at a ⊢
    omega
  · intro hs u hu
    rcases List.mem_cons.mp hu with rfl | hu
    · exact settled_mono (hs _ (List.mem_cons_self _ _)) h.mono
    · exact h.settled (fun v hv => hs _ (List.mem_cons_of_mem _ hv)) u hu

theorem stepAt_progress (text : Path) :
    ∀ (i : Nat) (ts : List MapTask) (c : Nat),
      Progress text ts c (stepAt text i ts c).1 (stepAt text i ts c).2 := by
  intro i ts
  induction ts generalizing i with
  | nil => intro c; cases i <;> exact progress_refl text [] c
  | cons t ts ih =>
    intro c
    cases i with
    | zero => exact progress_head ts (step_progress text t c)
    | succ i => exact progress_tail t (ih i c)

theorem runSchedule_progress (text : Path) :
    ∀ (sched : List Nat) (ts : List MapTask) (c : Nat),
      Progress text ts c (runSchedule text sched (ts, c)).1 (runSchedule text sched (ts, c)).2 := by
  intro sched
  induction sched with
  | nil => intro ts c; exact progress_refl text ts c
  | cons i sched ih =>
    intro ts c
    exact progress_trans (stepAt_progress text i ts c) (ih _ _)

theorem finishTasks_progress (text : Path) :
    ∀ (ts : List MapTask) (c : Nat),
      Progress text ts c (finishTasks text ts c).1 (finishTasks text ts c).2 := by
  intro ts
  induction ts with
  | nil => intro c; exact progress_refl text [] c
  | cons t ts ih =>
    intro c
    exact progress_trans (progress_head ts (steps_progress text (2 * t.rest.length + 2) t c))
      (progress_tail _ (ih _))

theorem finishTasks_finished (text : Path) :
    ∀ (ts : List MapTask) (c : Nat), ∀ t ∈ (finishTasks text ts c).1, t.finished = true := by
  intro ts
  induction ts with
  | nil => intro c t ht; simp [finishTasks] at ht
  | cons u ts ih =>
    intro c t ht
    simp only [finishTasks, List.mem_cons] at ht
    rcases ht with rfl | ht
    · exact steps_finished text _ u c (fuel_le u)
    · exact ih _ t ht

theorem keptCount_start (chunkList : List (List Path)) :
    keptCount (chunkList.map MapTask.start) = 0 := by
  induction chunkList with
  | nil => rfl
  | cons ch chs ih =>
    simp only [keptCount, List.map_cons, List.sum_cons] at ih ⊢
    rw [ih]
    rfl

theorem mapped_eq (text : Path) (chunkList : List (List Path)) (sched : List Nat) :
    mapped text chunkList sched =
      (finalTasks text chunkList sched).1.map (fun t => t.filtered.reverse) := rfl

theorem finalTasks_facts (text : Path) (chunkList : List (List Path)) (sched : List Nat) :
    (finalTasks text chunkList sched).1.map (MapTask.goal text)
        = chunkList.map (List.filter (matchesQuery text)) ∧
      keptCount (finalTasks text chunkList sched).1
        = min (finalTasks text chunkList sched).2 maxResults ∧
      ∀ t ∈ (finalTasks text chunkList sched).1,
        t.finished = true ∧ Settled text (finalTasks text chunkList sched).2 t := by
  have hp := progress_trans (runSchedule_progress text sched (chunkList.map MapTask.start) 0)
    (finishTasks_progress text _ _)
  have h0 := keptCount_start chunkList
  refine ⟨?_, ?_, ?_⟩
  · rw [show (finalTasks text chunkList sched).1.map (MapTask.goal text) = _ from hp.goal_eq]
    simp [MapTask.goal, MapTask.start, Function.comp_def]
  · have a := hp.count
    rw [h0] at a
    simp only [finalTasks]
    omega
  · intro t ht
    refine ⟨finishTasks_finished text _ _ t ht, ?_⟩
    refine hp.settled ?_ t ht
    intro u hu hf
    simp only [List.mem_map] at hu
    obtain ⟨ch, _, rfl⟩ := hu
    simp [MapTask.start] at hf

theorem flatten_filtered_sublist (text : Path) (ts : List MapTask) :
    (ts.map (fun t => t.filtered)).flatten.Sublist (ts.map (MapTask.goal text)).flatten := by
  induction ts with
  | nil => simp
  | cons t ts ih =>
    simp only [List.map_cons, List.flatten_cons]
    exact List.Sublist.append (List.sublist_append_left _ _) ih

theorem flatten_reversed_perm (ts : List MapTask) :
    ((ts.map (fun t => t.filtered.reverse)).flatten).Perm
      (ts.map (fun t => t.filtered)).flatten := by
  induction ts with
  | nil => simp
  | cons t ts ih =>
    simp only [List.map_cons, List.flatten_cons]
    exact List.Perm.append (List.reverse_perm _) ih

theorem length_flatten_filtered (ts : List MapTask) :
    ((ts.map (fun t => t.filtered)).flatten).length = keptCount ts := by
  induction ts with
  | nil => rfl
  | cons t ts ih =>
    simp only [List.map_cons, List.flatten_cons, List.length_append, ih, keptCount,
      List.sum_cons]

theorem flatten_map_filter (text : Path) (chunkList : List (List Path)) :
    (chunkList.map (List.filter (matchesQuery text))).flatten
      = chunkList.flatten.filter (matchesQuery text) := by
  induction chunkList with
  | nil => rfl
  | cons ch chs ih =>
    simp only [List.map_cons, List.flatten_cons, List.filter_append, ih]

/-- Whatever the interleaving, the paths returned by the filter tasks are, up to
order, a selection of the matching paths of the chunks, each taken at most once. -/
theorem mapped_perm_sublist (text : Path) (chunkList : List (List Path)) (sched : List Nat) :
    ∃ l, l.Sublist (chunkList.flatten.filter (matchesQuery text)) ∧
      (mapped text chunkList sched).flatten.Perm l := by
  refine ⟨((finalTasks text chunkList sched).1.map (fun t => t.filtered)).flatten, ?_, ?_⟩
  · have h := flatten_filtered_sublist text (finalTasks text chunkList sched).1
    rw [(finalTasks_facts text chunkList sched).1, flatten_map_filter] at h
    exact h
  · rw [mapped_eq]
    exact flatten_reversed_perm _

theorem filtered_eq_goal_of_lt (text : Path) (chunkList : List (List Path)) (sched : List Nat)
    (h : (finalTasks text chunkList sched).2 < maxResults) :
    (finalTasks text chunkList sched).1.map (fun t => t.filtered)
      = chunkList.map (List.filter (matchesQuery text)) := by
  rw [← (finalTasks_facts text chunkList sched).1]
  apply List.map_congr_left
  intro t ht
  have hs := ((finalTasks_facts text chunkList sched).2.2 t ht)
  have hr : t.rest.filter (matchesQuery text) = [] := by
    by_contra hne
    have := hs.2 hs.1 hne
    omega
  simp [MapTask.goal, hr]

/-- With fewer than maxResults matching paths in all, no task leaves its loop
early: each returns exactly the matches of its chunk, reversed. -/
theorem mapped_of_few (text : Path) (chunkList : List (List Path)) (sched : List Nat)
    (h : (chunkList.flatten.filter (matchesQuery text)).length < maxResults) :
    mapped text chunkList sched
      = chunkList.map (fun ch => (ch.filter (matchesQuery text)).reverse) := by
  have hk := (finalTasks_facts text chunkList sched).2.1
  have hsub := (flatten_filtered_sublist text (finalTasks text chunkList sched).1).length_le
  rw [length_flatten_filtered, (finalTasks_facts text chunkList sched).1,
    flatten_map_filter] at hsub
  have hc : (finalTasks text chunkList sched).2 < maxResults := by omega
  have := filtered_eq_goal_of_lt text chunkList sched hc
  rw [mapped_eq]
  have h2 : (finalTasks text chunkList sched).1.map (fun t => t.filtered.reverse)
      = ((finalTasks text chunkList sched).1.map (fun t => t.filtered)).map List.reverse := by
    simp [Function.comp_def]
  rw [h2, this]
  simp [Function.comp_def]

/-- The filter tasks together return as many paths as there are matches, or
maxResults of them when there are more. -/
theorem mapped_length_ge (text : Path) (chunkList : List (List Path)) (sched : List Nat) :
    min (chunkList.flatten.filter (matchesQuery text)).length maxResults
      ≤ (mapped text chunkList sched).flatten.length := by
  have hk := (finalTasks_facts text chunkList sched).2.1
  have hl : (mapped text chunkList sched).flatten.length
      = keptCount (finalTasks text chunkList sched).1 := by
    rw [mapped_eq, (flatten_reversed_perm _).length_eq, length_flatten_filtered]
  by_cases hc : (finalTasks text chunkList sched).2 < maxResults
  · have h1 := filtered_eq_goal_of_lt text chunkList sched hc
    have h2 := length_flatten_filtered (finalTasks text chunkList sched).1
    rw [h1, flatten_map_filter] at h2
    omega
  · omega

/-! ## Facts about the reducer -/

theorem reduceFunc_eq (result partialList : List Path) :
    reduceFunc result partialList = (result ++ partialList).take 50 := by
  unfold reduceFunc
  split_ifs with h
  · rfl
  · exact (List.take_of_length_le (by omega)).symm

theorem take_take_append (n : Nat) (a b : List Path) :
    ((a.take n) ++ b).take n = (a ++ b).take n := by
  by_cases h : a.length ≤ n
  · rw [List.take_of_length_le h]
  · have h1 : n ≤ a.length := by omega
    rw [List.take_append_of_le_length h1]
    rw [List.take_append_of_le_length (by rw [List.length_take]; omega)]
    rw [List.take_take]
    simp

theorem foldl_reduceFunc (partials : List (List Path)) :
    ∀ acc : List Path, acc.length ≤ 50 →
      partials.foldl reduceFunc acc = (acc ++ partials.flatten).take 50 := by
  induction partials with
  | nil =>
    intro acc h
    simp [List.take_of_length_le h]
  | cons ps rest ih =>
    intro acc _
    rw [List.foldl_cons, ih _ (by rw [reduceFunc_eq, List.length_take]; omega), reduceFunc_eq,
      take_take_append, List.flatten_cons, List.append_assoc]

/-- The reducer keeps the first 50 paths of the partial lists put end to end in
their arrival order. -/
theorem reduceAll_eq (partials : List (List Path)) :
    reduceAll partials = partials.flatten.take 50 := by
  unfold reduceAll
  rw [foldl_reduceFunc partials [] (by simp)]
  rfl

/-! ## Facts about the final sort -/

theorem sortResults_isSortOutput (isDir : Path → Bool) (results : List Path) :
    IsSortOutput isDir results (sortResults isDir results) := by
  haveI : IsTotal Path (fun a b => getPriority isDir a ≤ getPriority isDir b) :=
    ⟨fun a b => Nat.le_total _ _⟩
  haveI : IsTrans Path (fun a b => getPriority isDir a ≤ getPriority isDir b) :=
    ⟨fun _ _ _ h1 h2 => Nat.le_trans h1 h2⟩
  refine ⟨List.perm_insertionSort _ _, ?_⟩
  have h := List.sorted_insertionSort
    (fun a b => getPriority isDir a ≤ getPriority isDir b) results
  refine List.Pairwise.imp ?_ h
  intro a b hab
  simp only [sortLess, decide_eq_false_iff_not, Nat.not_lt]
  exact hab

/-- The search always returns: the sequential run is one of the admitted runs. -/
theorem searchFileConcurrent_returns (isDir : Path → Bool) (allPaths : List Path)
    (text : Path) (idealThreadCount : Int) :
    SearchReturns isDir allPaths text idealThreadCount
      (searchFileConcurrent isDir allPaths text idealThreadCount) :=
  ⟨[], _, List.Perm.refl _, sortResults_isSortOutput isDir _⟩

/-! ## C1: the search returns exactly the matching paths -/

theorem searchReturns_perm_of_few (isDir : Path → Bool) (allPaths : List Path) (text : Path)
    (idealThreadCount : Int) (h : (allPaths.filter (matchesQuery text)).length ≤ 50)
    (r : List Path) (hr : SearchReturns isDir allPaths text idealThreadCount r) :
    r.Perm (allPaths.filter (matchesQuery text)) := by
  obtain ⟨sched, merged, hm, hperm, _⟩ := hr
  have hfew : ((chunks allPaths idealThreadCount).flatten.filter (matchesQuery text)).length
      < maxResults := by
    rw [flatten_chunks]
    unfold maxResults
    omega
  rw [mapped_of_few text _ sched hfew] at hm
  have h1 : merged.flatten.Perm (allPaths.filter (matchesQuery text)) := by
    refine (List.Perm.flatten hm).trans ?_
    have h2 : ((chunks allPaths idealThreadCount).map
        (fun ch => (ch.filter (matchesQuery text)).reverse)).flatten.Perm
        ((chunks allPaths idealThreadCount).map (List.filter (matchesQuery text))).flatten := by
      generalize chunks allPaths idealThreadCount = cl
      induction cl with
      | nil => simp
      | cons ch chs ih =>
        simp only [List.map_cons, List.flatten_cons]
        exact List.Perm.append (List.reverse_perm _) ih
    refine h2.trans ?_
    rw [flatten_map_filter, flatten_chunks]
  rw [reduceAll_eq, List.take_of_length_le (by rw [h1.length_eq]; exact h)] at hperm
  exact hperm.trans h1

theorem getPriority_eq_rank (isDir : Path → Bool) (p : Path) :
    getPriority isDir p = (bucketOf isDir p).rank := by
  unfold getPriority bucketOf
  by_cases h1 : isDir p = true
  · simp [h1, Bucket.rank]
  · by_cases h2 : toLower (suffix p) = "lnk".toList
    · simp [h1, h2, Bucket.rank]
    · have h2' : ¬ toLower (suffix p) = ['l', 'n', 'k'] := h2
      by_cases h3 : toLower (suffix p) ∈ popular
      · simp [h1, h2', h3, Bucket.rank]
      · simp [h1, h2', h3, Bucket.rank]

theorem searchReturns_pairwise (isDir : Path → Bool) (allPaths : List Path) (text : Path)
    (idealThreadCount : Int) (r : List Path)
    (h : SearchReturns isDir allPaths text idealThreadCount r) :
    r.Pairwise (fun a b => (bucketOf isDir a).rank ≤ (bucketOf isDir b).rank) := by
  obtain ⟨_, _, _, _, hs⟩ := h
  refine List.Pairwise.imp ?_ hs
  intro a b hab
  simp only [sortLess, decide_eq_false_iff_not, Nat.not_lt, getPriority_eq_rank] at hab
  exact hab

theorem bucketResult_returned :
    SearchReturns bucketIsDir (snapshot bucketIndex) "doc".toList 4 bucketResult := by
  have h : searchFileConcurrent bucketIsDir (snapshot bucketIndex) "doc".toList 4
      = bucketResult := by decide
  rw [← h]
  exact searchFileConcurrent_returns _ _ _ _

/-- C2, as stated, fails.  For the index bucketIndex every path matches the query
doc, and every list the search can return is bucketResult: the popular file
doc.txt comes first and the directory docs only third, and the shortcut doc.lnk
comes last, after the generic file doc.dat. -/
theorem directory_not_first_counterexample :
    SearchReturns bucketIsDir (snapshot bucketIndex) "doc".toList 4 bucketResult ∧
    (∀ r, SearchReturns bucketIsDir (snapshot bucketIndex) "doc".toList 4 r →
      r = bucketResult) ∧
    bucketResult.map (bucketOf bucketIsDir)
      = [Bucket.popularFile, Bucket.generic, Bucket.directory, Bucket.shortcut] ∧
    ¬ (∀ r, SearchReturns bucketIsDir (snapshot bucketIndex) "doc".toList 4 r →
        ∀ a b, [a, b].Sublist r →
          (bucketOf bucketIsDir b = Bucket.directory →
            bucketOf bucketIsDir a = Bucket.directory) ∧
          (bucketOf bucketIsDir b = Bucket.shortcut →
            bucketOf bucketIsDir a ≠ Bucket.generic)) := by
  have huniq : ∀ r, SearchReturns bucketIsDir (snapshot bucketIndex) "doc".toList 4 r →
      r = bucketResult := by
    intro r hr
    have hp := searchReturns_perm_of_few bucketIsDir _ _ 4 (by decide) r hr
    have he : (snapshot bucketIndex).filter (matchesQuery "doc".toList) = snapshot bucketIndex :=
      by decide
    rw [he] at hp
    have hp2 : r.Perm bucketResult := hp.trans (by decide)
    have h1 := searchReturns_pairwise _ _ _ _ r hr
    have h2 : r.Pairwise (fun a b =>
        (bucketOf bucketIsDir a).rank ≠ (bucketOf bucketIsDir b).rank) := by
      refine hp2.symm.pairwise (by decide) ?_
      intro a b hab
      exact fun h => hab h.symm
    have h3 : r.Pairwise (fun a b =>
        (bucketOf bucketIsDir a).rank < (bucketOf bucketIsDir b).rank) :=
      (h1.and h2).imp (fun hab => Nat.lt_of_le_of_ne hab.1 hab.2)
    have h4 : bucketResult.Pairwise (fun a b =>
        (bucketOf bucketIsDir a).rank < (bucketOf bucketIsDir b).rank) := by decide
    haveI : IsAntisymm Path (fun a b =>
        (bucketOf bucketIsDir a).rank < (bucketOf bucketIsDir b).rank) :=
      ⟨fun a b h5 h6 => absurd h5 (Nat.lt_asymm h6)⟩
    exact List.eq_of_perm_of_sorted hp2 h3 h4
  refine ⟨bucketResult_returned, huniq, by decide, ?_⟩
  intro hall
  have h := (hall bucketResult bucketResult_returned "C:\\Users\\a\\doc.txt".toList
    "C:\\Users\\a\\docs".toList (by decide)).1 (by decide)
  revert h
  decide

/-- C2, amended.  In every list the search returns the buckets come in the order
popular-extension files, generic-extension files, directories, shortcut files:
whenever a stands before b in the list, nothing stands before a popular file but
popular files, nothing before a generic file but popular and generic files, and
nothing after a shortcut but shortcuts, nothing after a directory but
directories and shortcuts. -/
theorem search_orders_by_bucket (isDir : Path → Bool) (allPaths : List Path) (text : Path)
    (idealThreadCount : Int) (r : List Path)
    (h : SearchReturns isDir allPaths text idealThreadCount r) :
    ∀ a b, [a, b].Sublist r →
      (bucketOf isDir a).rank ≤ (bucketOf isDir b).rank ∧
      (bucketOf isDir b = Bucket.popularFile → bucketOf isDir a = Bucket.popularFile) ∧
      (bucketOf isDir b = Bucket.generic →
        bucketOf isDir a = Bucket.popularFile ∨ bucketOf isDir a = Bucket.generic) ∧
      (bucketOf isDir a = Bucket.shortcut → bucketOf isDir b = Bucket.shortcut) ∧
      (bucketOf isDir a = Bucket.directory →
        bucketOf isDir b = Bucket.directory ∨ bucketOf isDir b = Bucket.shortcut) := by
  intro a b hab
  have hle := List.pairwise_iff_forall_sublist.mp
    (searchReturns_pairwise isDir allPaths text idealThreadCount r h) hab
  refine ⟨hle, ?_, ?_, ?_, ?_⟩ <;>
    · revert hle
      cases bucketOf isDir a <;> cases bucketOf isDir b <;> simp [Bucket.rank]

/-- C2, amended, at bucketIndex: in the returned list the popular file doc.txt
stands before the directory docs. -/
theorem search_orders_by_bucket_witness :
    SearchReturns bucketIsDir (snapshot bucketIndex) "doc".toList 4 bucketResult ∧
    (bucketOf bucketIsDir "C:\\Users\\a\\doc.txt".toList).rank
      ≤ (bucketOf bucketIsDir "C:\\Users\\a\\docs".toList).rank :=
  ⟨bucketResult_returned,
    (search_orders_by_bucket bucketIsDir (snapshot bucketIndex) "doc".toList 4 bucketResult
      bucketResult_returned "C:\\Users\\a\\doc.txt".toList "C:\\Users\\a\\docs".toList
      (by decide)).1⟩

/-! ## C3: at most 50 results -/

theorem reduceAll_length_le (partials : List (List Path)) :
    (reduceAll partials).length ≤ 50 := by
  rw [reduceAll_eq, List.length_take]
  exact Nat.min_le_left _ _

/-- C3. Whatever the partial lists and their arrival order, the reducer ends with
at most 50 paths; any output of the final sort is a rearrangement of the merged
list and so has the same length; hence every list the search can return, for
every snapshot, query, thread count, interleaving and merge order, has at most
50 entries. -/
theorem search_returns_at_most_50 :
    (∀ partials : List (List Path), (reduceAll partials).length ≤ 50) ∧
    (∀ (isDir : Path → Bool) (results : List Path),
      (sortResults isDir results).Perm results ∧
      ∀ out, IsSortOutput isDir results out →
        out.Perm results ∧ out.length = results.length) ∧
    (∀ (isDir : Path → Bool) (allPaths : List Path) (text : Path) (idealThreadCount : Int)
      (sched : List Nat) (merged : List (List Path)) (out : List Path),
      merged.Perm (mapped text (chunks allPaths idealThreadCount) sched) →
      IsSortOutput isDir (reduceAll merged) out → out.length ≤ 50) ∧
    (∀ (isDir : Path → Bool) (allPaths : List Path) (text : Path) (idealThreadCount : Int)
      (r : List Path),
      SearchReturns isDir allPaths text idealThreadCount r → r.length ≤ 50) := by
  refine ⟨reduceAll_length_le, ?_, ?_, ?_⟩
  · intro isDir results
    exact ⟨(sortResults_isSortOutput isDir results).1, fun out h => ⟨h.1, h.1.length_eq⟩⟩
  · intro isDir allPaths text idealThreadCount sched merged out _ hs
    rw [hs.1.length_eq]
    exact reduceAll_length_le merged
  · intro isDir allPaths text idealThreadCount r hr
    obtain ⟨_, merged, _, hs⟩ := hr
    rw [hs.1.length_eq]
    exact reduceAll_length_le merged

set_option maxRecDepth 100000 in
/-- C3 at a snapshot with 1000 matching paths: the search returns at most 50. -/
theorem search_returns_at_most_50_witness :
    (thousandDocs.filter (matchesQuery "doc".toList)).length = 1000 ∧
    SearchReturns (fun _ => false) thousandDocs "doc".toList 8
      (searchFileConcurrent (fun _ => false) thousandDocs "doc".toList 8) ∧
    (searchFileConcurrent (fun _ => false) thousandDocs "doc".toList 8).length ≤ 50 :=
  ⟨by decide!, searchFileConcurrent_returns _ _ _ _,
    search_returns_at_most_50.2.2.2 (fun _ => false) thousandDocs "doc".toList 8 _
      (searchFileConcurrent_returns _ _ _ _)⟩

/-! ## C4: which paths survive the merge -/

theorem mapped_mem_prefix (text : Path) (chunkList : List (List Path)) (sched : List Nat)
    (part : List Path) (h : part ∈ mapped text chunkList sched) :
    ∃ ch ∈ chunkList, part.reverse <+: ch.filter (matchesQuery text) := by
  rw [mapped_eq, List.mem_map] at h
  obtain ⟨t, ht, rfl⟩ := h
  have hg : t.goal text ∈ (finalTasks text chunkList sched).1.map (MapTask.goal text) :=
    List.mem_map_of_mem _ ht
  rw [(finalTasks_facts text chunkList sched).1, List.mem_map] at hg
  obtain ⟨ch, hch, he⟩ := hg
  refine ⟨ch, hch, ?_⟩
  rw [List.reverse_reverse, he]
  exact ⟨_, rfl⟩

theorem keptPaths_facts (allPaths : List Path) (text : Path) (idealThreadCount : Int)
    (sched : List Nat) (merged : List (List Path))
    (hm : merged.Perm (mapped text (chunks allPaths idealThreadCount) sched)) :
    (∃ l, l.Sublist (allPaths.filter (matchesQuery text)) ∧ merged.flatten.Perm l) ∧
    min (allPaths.filter (matchesQuery text)).length maxResults ≤ merged.flatten.length := by
  obtain ⟨l, hl, hp⟩ := mapped_perm_sublist text (chunks allPaths idealThreadCount) sched
  rw [flatten_chunks] at hl
  refine ⟨⟨l, hl, (List.Perm.flatten hm).trans hp⟩, ?_⟩
  have := mapped_length_ge text (chunks allPaths idealThreadCount) sched
  rw [flatten_chunks] at this
  rw [(List.Perm.flatten hm).length_eq]
  exact this

theorem perm_pair_cases {α : Type} {a b : α} {l : List α} (h : l.Perm [a, b]) :
    l = [a, b] ∨ l = [b, a] := by
  obtain ⟨x, y, rfl⟩ := List.length_eq_two.mp h.length_eq
  have hx : x ∈ [a, b] := h.subset (List.mem_cons_self _ _)
  have hy : y ∈ [a, b] := h.subset (List.mem_cons_of_mem _ (List.mem_cons_self _ _))
  simp only [List.mem_cons, List.mem_singleton, List.not_mem_nil, or_false] at hx hy
  rcases hx with rfl | rfl <;> rcases hy with rfl | rfl
  · have := h.symm.subset (List.mem_cons_of_mem _ (List.mem_cons_self _ _))
    simp only [List.mem_cons, List.mem_singleton, List.not_mem_nil, or_false, or_self] at this
    subst this
    exact Or.inl rfl
  · exact Or.inl rfl
  · exact Or.inr rfl
  · have := h.symm.subset (List.mem_cons_self _ _)
    simp only [List.mem_cons, List.mem_singleton, List.not_mem_nil, or_false, or_self] at this
    subst this
    exact Or.inl rfl

set_option maxRecDepth 100000 in
/-- C4, as stated, fails.  The snapshot of fiftyOneIndex lists C:\doc00 to
C:\doc50 in this order and all 51 match the query doc.  In every run (every
interleaving, both merge orders of the two chunks) a matching path is dropped
that stands before a kept path in the snapshot: the kept paths are not the first
50 of the snapshot ordering. -/
theorem merge_not_top50_counterexample :
    snapshot fiftyOneIndex = (List.range 51).map docPath ∧
    ((snapshot fiftyOneIndex).filter (matchesQuery "doc".toList)).length = 51 ∧
    ∀ sched merged,
      merged.Perm (mapped "doc".toList (chunks (snapshot fiftyOneIndex) 4) sched) →
      ∃ q p, q ∈ snapshot fiftyOneIndex ∧ matchesQuery "doc".toList q = true ∧
        q ∉ keptPaths merged ∧ p ∈ keptPaths merged ∧
        [q, p].Sublist (snapshot fiftyOneIndex) := by
  have hsnap : snapshot fiftyOneIndex = (List.range 51).map docPath := by decide!
  rw [hsnap]
  refine ⟨rfl, by decide!, ?_⟩
  intro sched merged hm
  rw [mapped_of_few _ _ sched (by rw [flatten_chunks]; decide!)] at hm
  have hM : (chunks ((List.range 51).map docPath) 4).map
      (fun ch => (ch.filter (matchesQuery "doc".toList)).reverse)
      = [((List.range 26).map docPath).reverse,
         ((List.range 25).map (fun i => docPath (26 + i))).reverse] := by decide!
  rw [hM] at hm
  rcases perm_pair_cases hm with rfl | rfl
  · exact ⟨docPath 26, docPath 50, by decide!, by decide!, by decide!, by decide!, by decide!⟩
  · exact ⟨docPath 0, docPath 50, by decide!, by decide!, by decide!, by decide!, by decide!⟩

/-- C4, amended.  In every run the paths kept by the map and reduce steps are the
first 50 entries of the partial lists put end to end in their arrival order,
where each partial list is the reverse of an initial run of the matches of one
chunk.  Every kept path is an indexed path whose file name contains the query,
no path is kept twice when the snapshot has no repeated path, and with more than
50 matching paths exactly 50 are kept.  Which of the matching paths are kept
depends on the merge order; they need not be the first 50 of the snapshot. -/
theorem merge_keeps_50_matching_paths (allPaths : List Path) (text : Path)
    (idealThreadCount : Int) (sched : List Nat) (merged : List (List Path))
    (hm : merged.Perm (mapped text (chunks allPaths idealThreadCount) sched)) :
    keptPaths merged = merged.flatten.take 50 ∧
    (∀ part ∈ merged, ∃ ch ∈ chunks allPaths idealThreadCount,
      part.reverse <+: ch.filter (matchesQuery text)) ∧
    (∀ p ∈ keptPaths merged, p ∈ allPaths ∧ matchesQuery text p = true) ∧
    (allPaths.Nodup → (keptPaths merged).Nodup) ∧
    (50 < (allPaths.filter (matchesQuery text)).length → (keptPaths merged).length = 50) := by
  obtain ⟨⟨l, hl, hp⟩, hlen⟩ :=
    keptPaths_facts allPaths text idealThreadCount sched merged hm
  have hk : keptPaths merged = merged.flatten.take 50 := reduceAll_eq merged
  refine ⟨hk, ?_, ?_, ?_, ?_⟩
  · intro part hpart
    exact mapped_mem_prefix text _ sched part (hm.subset hpart)
  · intro p hpk
    rw [hk] at hpk
    have h1 : p ∈ l := hp.subset (List.mem_of_mem_take hpk)
    exact List.mem_filter.mp (hl.subset h1)
  · intro hnd
    rw [hk]
    have h1 : l.Nodup := (hnd.filter _).sublist hl
    exact (hp.nodup_iff.mpr h1).sublist (List.take_sublist _ _)
  · intro h50
    rw [hk, List.length_take]
    unfold maxResults at hlen
    omega

set_option maxRecDepth 100000 in
/-- C4, amended, at the snapshot of fiftyOneIndex with the query doc, the
sequential interleaving and the chunk results merged in chunk order. -/
theorem merge_keeps_50_matching_paths_witness :
    50 < ((snapshot fiftyOneIndex).filter (matchesQuery "doc".toList)).length ∧
    (keptPaths (mapped "doc".toList (chunks (snapshot fiftyOneIndex) 4) [])).length = 50 :=
  ⟨by decide!,
    (merge_keeps_50_matching_paths (snapshot fiftyOneIndex) "doc".toList 4 []
      (mapped "doc".toList (chunks (snapshot fiftyOneIndex) 4) []) (List.Perm.refl _)).2.2.2.2
      (by decide!)⟩

/-! ## Facts about the items table and the insert worker -/

theorem scanPending_fst (now : Int) (l : List FileChange) :
    (StartInsertWorker.scanPending now l).1
      = l.filter (fun ch => decide (now - ch.timestamp ≥ 15000)) := by
  induction l with
  | nil => rfl
  | cons ch more ih =>
    by_cases h : now - ch.timestamp ≥ 15000
    · simp [StartInsertWorker.scanPending, h, ih]
    · simp [StartInsertWorker.scanPending, h, ih]

theorem scanPending_snd (now : Int) (l : List FileChange) :
    (StartInsertWorker.scanPending now l).2
      = l.filter (fun ch => decide (now - ch.timestamp < 15000)) := by
  induction l with
  | nil => rfl
  | cons ch more ih =>
    by_cases h : now - ch.timestamp ≥ 15000
    · have h2 : ¬ now - ch.timestamp < 15000 := by omega
      simp [StartInsertWorker.scanPending, h, h2, ih]
    · have h2 : now - ch.timestamp < 15000 := by omega
      simp [StartInsertWorker.scanPending, h, h2, ih]

theorem mem_insertOrReplace (db : List Item) (q : Path) (ty : List Char) (it : Item) :
    it ∈ insertOrReplace db q ty ↔
      (it ∈ db ∧ it.path ≠ q) ∨ it = { path := q, type := ty, priority := 0 } := by
  simp [insertOrReplace, List.mem_filter]

theorem mem_deleteByPath (db : List Item) (q : Path) (it : Item) :
    it ∈ deleteByPath db q ↔ it ∈ db ∧ it.path ≠ q := by
  simp [deleteByPath, List.mem_filter]

theorem mem_paths_insertOrReplace (db : List Item) (q : Path) (ty : List Char) (p : Path)
    (h : p ∈ paths db) : p ∈ paths (insertOrReplace db q ty) := by
  simp only [paths, List.mem_map] at h ⊢
  obtain ⟨it, hit, rfl⟩ := h
  by_cases hq : it.path = q
  · exact ⟨{ path := q, type := ty, priority := 0 },
      (mem_insertOrReplace db q ty _).mpr (Or.inr rfl), hq.symm⟩
  · exact ⟨it, (mem_insertOrReplace db q ty _).mpr (Or.inl ⟨hit, hq⟩), rfl⟩

theorem mem_paths_insertOrReplace_self (db : List Item) (q : Path) (ty : List Char) :
    q ∈ paths (insertOrReplace db q ty) := by
  simp only [paths, List.mem_map]
  exact ⟨{ path := q, type := ty, priority := 0 },
    (mem_insertOrReplace db q ty _).mpr (Or.inr rfl), rfl⟩

theorem mem_paths_foldl_of_mem_paths (l : List FileChange) :
    ∀ (db : List Item) (p : Path), p ∈ paths db →
      p ∈ paths (l.foldl (fun db change => insertOrReplace db change.path [change.type]) db) := by
  induction l with
  | nil => intro db p h; exact h
  | cons ch more ih =>
    intro db p h
    exact ih _ p (mem_paths_insertOrReplace db ch.path [ch.type] p h)

theorem mem_paths_foldl_of_mem (l : List FileChange) :
    ∀ (db : List Item) (ch : FileChange), ch ∈ l →
      ch.path ∈
        paths (l.foldl (fun db change => insertOrReplace db change.path [change.type]) db) := by
  induction l with
  | nil => intro db ch h; simp at h
  | cons c more ih =>
    intro db ch h
    rcases List.mem_cons.mp h with rfl | h
    · exact mem_paths_foldl_of_mem_paths more _ _ (mem_paths_insertOrReplace_self db _ _)
    · exact ih _ ch h

/-! ## C5: the path strings of the crawler and of the watcher -/

theorem relativeName_glue (a m : Path) (ms : List Path) :
    relativeName ((a ++ "\\".toList ++ m) :: ms) = a ++ "\\".toList ++ relativeName (m :: ms) := by
  cases ms with
  | nil => rfl
  | cons x xs => simp [relativeName, List.append_assoc]

theorem crawlerPath_eq (root : Path) :
    ∀ (more : List Path) (name : Path),
      crawlerPath root (name :: more) = root ++ "\\".toList ++ relativeName (name :: more) := by
  intro more
  induction more with
  | nil => intro name; rfl
  | cons m ms ih =>
    intro name
    have h := ih (name ++ "\\".toList ++ m)
    simp only [crawlerPath, List.foldl_cons, newPath] at h ⊢
    rw [relativeName_glue] at h
    have e1 : root ++ "\\".toList ++ name ++ "\\".toList ++ m
        = root ++ "\\".toList ++ (name ++ "\\".toList ++ m) := by
      simp only [List.append_assoc]
    rw [e1, h]
    rfl

theorem processEntries_paths (fs : FileSystem) (path : Path) (names : List Path) :
    (∀ item ∈ (processEntries fs path names).1,
      ∃ name ∈ names, skipEntry name = false ∧ item.path = newPath path name) ∧
    (∀ dir ∈ (processEntries fs path names).2,
      ∃ name ∈ names, skipEntry name = false ∧ dir = newPath path name) := by
  induction names with
  | nil => simp [processEntries]
  | cons name more ih =>
    by_cases hs : skipEntry name = true
    · simp only [processEntries, hs, if_true]
      exact ⟨fun item hi => by
          obtain ⟨n, hn, h1, h2⟩ := ih.1 item hi
          exact ⟨n, List.mem_cons_of_mem _ hn, h1, h2⟩,
        fun dir hd => by
          obtain ⟨n, hn, h1, h2⟩ := ih.2 dir hd
          exact ⟨n, List.mem_cons_of_mem _ hn, h1, h2⟩⟩
    · have hs' : skipEntry name = false := by simpa using hs
      simp only [processEntries, hs', Bool.false_eq_true, if_false]
      constructor
      · intro item hi
        rcases List.mem_cons.mp hi with rfl | hi
        · exact ⟨name, List.mem_cons_self _ _, hs', rfl⟩
        · obtain ⟨n, hn, h1, h2⟩ := ih.1 item hi
          exact ⟨n, List.mem_cons_of_mem _ hn, h1, h2⟩
      · intro dir hd
        split_ifs at hd
        · rcases List.mem_cons.mp hd with rfl | hd
          · exact ⟨name, List.mem_cons_self _ _, hs', rfl⟩
          · obtain ⟨n, hn, h1, h2⟩ := ih.2 dir hd
            exact ⟨n, List.mem_cons_of_mem _ hn, h1, h2⟩
        · obtain ⟨n, hn, h1, h2⟩ := ih.2 dir hd
          exact ⟨n, List.mem_cons_of_mem _ hn, h1, h2⟩

/-- Every record staged and every directory enqueued by processDirectory for a
directory has the path of that directory, a backslash and an entry name. -/
theorem processDirectory_paths (fs : FileSystem) (path : Path) :
    (∀ item ∈ (processDirectory fs path).1, ∃ name, item.path = newPath path name) ∧
    (∀ dir ∈ (processDirectory fs path).2, ∃ name, dir = newPath path name) := by
  unfold processDirectory
  cases fs.readdir path with
  | none => simp
  | some names =>
    refine ⟨fun item hi => ?_, fun dir hd => ?_⟩
    · obtain ⟨n, _, _, h⟩ := (processEntries_paths fs path names).1 item hi
      exact ⟨n, h⟩
    · obtain ⟨n, _, _, h⟩ := (processEntries_paths fs path names).2 dir hd
      exact ⟨n, h⟩

/-- A row stored under the path the crawler builds is still in the index after
the watcher has handled the removal of the same entry. -/
theorem crawler_row_survives_delete (attributes : Path → Nat) (now : Int) (driveLetter : Char)
    (name : Path) (more : List Path) (st : WatchState) (it : Item) (hit : it ∈ st.items)
    (hpath : it.path = crawlerPath (rootPathOf driveLetter) (name :: more)) :
    it ∈ (MonitorDrive.handleBatch attributes now (rootPathOf driveLetter) st
      [{ action := Action.removed, relative := relativeName (name :: more) }]).items := by
  have hb : (MonitorDrive.handleBatch attributes now (rootPathOf driveLetter) st
      [{ action := Action.removed, relative := relativeName (name :: more) }]).items
      = deleteByPath st.items (rootPathOf driveLetter ++ relativeName (name :: more)) := rfl
  rw [hb, mem_deleteByPath]
  refine ⟨hit, ?_⟩
  rw [hpath, crawlerPath_eq]
  intro h
  have := congrArg List.length h
  simp only [List.length_append] at this
  simp at this

/-- C5: the code does not do what the claim says.  For every drive root X:\ and
every entry below it, the path string the crawler builds (one newPath per level,
starting from the enqueued root, which already ends in a backslash) is the root,
a second backslash and the relative name, and so differs from the string
rootPath + relative that the watcher resolves.  At the file system usersFs the
crawler stores the row C:\\Users for the directory Users of C:\, and after the
watcher has handled the removal of Users under the root C:\ that row is still
in the index. -/
theorem crawler_key_differs_from_watcher_key :
    (∀ (driveLetter : Char) (name : Path) (more : List Path),
      crawlerPath (rootPathOf driveLetter) (name :: more)
        = rootPathOf driveLetter ++ "\\".toList ++ relativeName (name :: more) ∧
      crawlerPath (rootPathOf driveLetter) (name :: more)
        ≠ rootPathOf driveLetter ++ relativeName (name :: more)) ∧
    rootPathOf 'c' = "C:\\".toList ∧
    (processDirectory usersFs (rootPathOf 'c')).1
      = [{ path := "C:\\\\Users".toList, type := "d".toList, priority := 0 }] ∧
    (MonitorDrive.handleBatch usersFs.attributes 0 (rootPathOf 'c')
        { items := batchInsertToDB [] (processDirectory usersFs (rootPathOf 'c')).1,
          pending := [] }
        [{ action := Action.removed, relative := "Users".toList }]).items
      = [{ path := "C:\\\\Users".toList, type := "d".toList, priority := 0 }] := by
  refine ⟨?_, by decide, by decide, by decide⟩
  intro driveLetter name more
  refine ⟨crawlerPath_eq _ more name, ?_⟩
  rw [crawlerPath_eq]
  intro h
  have := congrArg List.length h
  simp only [List.length_append] at this
  simp at this

/-! ## C6: a creation followed by a rename inside the grace window -/

/-- C6: the code does not do what the claim says.  When the watcher has handled
the creation of P at time t0 and then the rename of P to Q (at any time t1), the
staged entry for P is still in g_pendingInserts, and the first tick of the insert
worker at or after t0 + 15000 writes P into the index.  With an empty index, the
folder C:\New folder created at time 0 and renamed to C:\Work at time 5000, the
index after the tick at time 15000 holds both C:\Work and C:\New folder. -/
theorem renamed_pending_path_is_promoted :
    (∀ (attrs1 attrs2 : Path → Nat) (rootPath relP relQ : Path) (st : WatchState)
      (t0 t1 : Int) (late : Nat),
      rootPath ++ relP ∈ paths (StartInsertWorker.tick (t0 + 15000 + late)
        (MonitorDrive.handleBatch attrs2 t1 rootPath
          (MonitorDrive.handleBatch attrs1 t0 rootPath st
            [{ action := Action.added, relative := relP }])
          [{ action := Action.renamedOldName, relative := relP },
           { action := Action.renamedNewName, relative := relQ }])).items) ∧
    (StartInsertWorker.tick 15000
        (MonitorDrive.handleBatch allDirectories 5000 "C:\\".toList
          (MonitorDrive.handleBatch allDirectories 0 "C:\\".toList { items := [], pending := [] }
            [{ action := Action.added, relative := "New folder".toList }])
          [{ action := Action.renamedOldName, relative := "New folder".toList },
           { action := Action.renamedNewName, relative := "Work".toList }])).items
      = [{ path := "C:\\Work".toList, type := ['d'], priority := 0 },
         { path := "C:\\New folder".toList, type := ['d'], priority := 0 }] := by
  refine ⟨?_, by decide⟩
  intro attrs1 attrs2 rootPath relP relQ st t0 t1 late
  simp only [StartInsertWorker.tick, MonitorDrive.handleBatch, List.foldl_cons, List.foldl_nil,
    MonitorDrive.handleRecord]
  refine mem_paths_foldl_of_mem _ _
    { path := rootPath ++ relP, status := FileStatus.Created,
      type := DetectFileType attrs1 (rootPath ++ relP), timestamp := t0 } ?_
  rw [scanPending_fst, List.mem_filter]
  refine ⟨by simp, ?_⟩
  simp only [decide_eq_true_eq]
  omega

/-! ## C7: a deletion takes effect at once and touches nothing else -/

/-- C7. After the watcher has handled a Deleted record for the relative name, the
index has no row with the path rootPath + relative, the rows with other paths
are the same as before (the table is the old one with the rows of that path
filtered out), and g_pendingInserts and oldName are untouched; the same holds
for a buffer with that single record. -/
theorem deleted_event_removes_only_that_path (attributes : Path → Nat) (now : Int)
    (rootPath relative oldName : Path) (st : WatchState) :
    (∀ it ∈ (MonitorDrive.handleRecord attributes now rootPath (st, oldName)
        { action := Action.removed, relative := relative }).1.items,
      it.path ≠ rootPath ++ relative) ∧
    (∀ it : Item, it.path ≠ rootPath ++ relative →
      (it ∈ (MonitorDrive.handleRecord attributes now rootPath (st, oldName)
          { action := Action.removed, relative := relative }).1.items ↔ it ∈ st.items)) ∧
    (MonitorDrive.handleRecord attributes now rootPath (st, oldName)
        { action := Action.removed, relative := relative }).1.items
      = st.items.filter (fun it => it.path != rootPath ++ relative) ∧
    (MonitorDrive.handleRecord attributes now rootPath (st, oldName)
        { action := Action.removed, relative := relative }).1.pending = st.pending ∧
    (MonitorDrive.handleRecord attributes now rootPath (st, oldName)
        { action := Action.removed, relative := relative }).2 = oldName ∧
    MonitorDrive.handleBatch attributes now rootPath st
        [{ action := Action.removed, relative := relative }]
      = { items := st.items.filter (fun it => it.path != rootPath ++ relative),
          pending := st.pending } := by
  refine ⟨?_, ?_, rfl, rfl, rfl, rfl⟩
  · intro it hit
    exact ((mem_deleteByPath _ _ _).mp hit).2
  · intro it hne
    constructor
    · intro hit
      exact ((mem_deleteByPath _ _ _).mp hit).1
    · intro hit
      exact (mem_deleteByPath _ _ _).mpr ⟨hit, hne⟩

/-- C7 at sampleState: the removal of a.txt under C:\ leaves the row of b.txt and
the staged creation. -/
theorem deleted_event_removes_only_that_path_witness :
    MonitorDrive.handleBatch allDirectories 0 "C:\\".toList sampleState
        [{ action := Action.removed, relative := "a.txt".toList }]
      = { items := [{ path := "C:\\b.txt".toList, type := "f".toList, priority := 0 }],
          pending := sampleState.pending } :=
  (deleted_event_removes_only_that_path allDirectories 0 "C:\\".toList "a.txt".toList []
    sampleState).2.2.2.2.2.trans (by decide)

/-! ## C8: a rename pair -/

/-- C8. After the watcher has handled, in one buffer, RenamedFrom for P and then
RenamedNew for Q with P and Q distinct, the index has no row for P and exactly one
row for Q, whose type is the one DetectFileType gives for Q at that moment (and
whose priority is the default 0); a row with another path is in the index after
exactly when it was before; g_pendingInserts is unchanged. -/
theorem rename_pair_replaces_old_by_new (attributes : Path → Nat) (now : Int)
    (rootPath relP relQ : Path) (st : WatchState)
    (h : rootPath ++ relP ≠ rootPath ++ relQ) :
    (∀ it ∈ (MonitorDrive.handleBatch attributes now rootPath st
        [{ action := Action.renamedOldName, relative := relP },
         { action := Action.renamedNewName, relative := relQ }]).items,
      it.path ≠ rootPath ++ relP) ∧
    (MonitorDrive.handleBatch attributes now rootPath st
        [{ action := Action.renamedOldName, relative := relP },
         { action := Action.renamedNewName, relative := relQ }]).items.filter
        (fun it => it.path == rootPath ++ relQ)
      = [{ path := rootPath ++ relQ, type := [DetectFileType attributes (rootPath ++ relQ)],
           priority := 0 }] ∧
    (∀ it : Item, it.path ≠ rootPath ++ relP → it.path ≠ rootPath ++ relQ →
      (it ∈ (MonitorDrive.handleBatch attributes now rootPath st
          [{ action := Action.renamedOldName, relative := relP },
           { action := Action.renamedNewName, relative := relQ }]).items ↔ it ∈ st.items)) ∧
    (MonitorDrive.handleBatch attributes now rootPath st
        [{ action := Action.renamedOldName, relative := relP },
         { action := Action.renamedNewName, relative := relQ }]).pending = st.pending := by
  have hb : MonitorDrive.handleBatch attributes now rootPath st
      [{ action := Action.renamedOldName, relative := relP },
       { action := Action.renamedNewName, relative := relQ }]
      = { items := insertOrReplace (deleteByPath st.items (rootPath ++ relP)) (rootPath ++ relQ)
            [DetectFileType attributes (rootPath ++ relQ)],
          pending := st.pending } := rfl
  rw [hb]
  refine ⟨?_, ?_, ?_, rfl⟩
  · intro it hit
    rcases (mem_insertOrReplace _ _ _ _).mp hit with ⟨hd, _⟩ | rfl
    · exact ((mem_deleteByPath _ _ _).mp hd).2
    · exact fun e => h e.symm
  · simp only [insertOrReplace, List.filter_append, List.filter_filter]
    have h1 : (deleteByPath st.items (rootPath ++ relP)).filter
        (fun it => (it.path == rootPath ++ relQ) && (it.path != rootPath ++ relQ)) = [] := by
      rw [List.filter_eq_nil_iff]
      intro it _
      simp
    rw [h1]
    simp
  · intro it hp hq
    constructor
    · intro hit
      rcases (mem_insertOrReplace _ _ _ _).mp hit with ⟨hd, _⟩ | rfl
      · exact ((mem_deleteByPath _ _ _).mp hd).1
      · exact absurd rfl hq
    · intro hit
      exact (mem_insertOrReplace _ _ _ _).mpr
        (Or.inl ⟨(mem_deleteByPath _ _ _).mpr ⟨hit, hp⟩, hq⟩)

/-- C8 at sampleState: a.txt under C:\ is renamed to z.txt. -/
theorem rename_pair_replaces_old_by_new_witness :
    "C:\\".toList ++ "a.txt".toList ≠ "C:\\".toList ++ "z.txt".toList ∧
    (MonitorDrive.handleBatch (fun _ => 0) 0 "C:\\".toList sampleState
        [{ action := Action.renamedOldName, relative := "a.txt".toList },
         { action := Action.renamedNewName, relative := "z.txt".toList }]).items.filter
        (fun it => it.path == "C:\\".toList ++ "z.txt".toList)
      = [{ path := "C:\\".toList ++ "z.txt".toList,
           type := [DetectFileType (fun _ => 0) ("C:\\".toList ++ "z.txt".toList)],
           priority := 0 }] :=
  ⟨by decide,
    (rename_pair_replaces_old_by_new (fun _ => 0) 0 "C:\\".toList "a.txt".toList
      "z.txt".toList sampleState (by decide)).2.1⟩

/-! ## C9: one tick of the insert worker -/

theorem count_insertOrReplace_self (db : List Item) (q : Path) (ty : List Char) :
    ((insertOrReplace db q ty).filter (fun it => it.path == q)).length = 1 := by
  simp only [insertOrReplace, List.filter_append, List.filter_filter]
  have h1 : db.filter (fun it => (it.path == q) && (it.path != q)) = [] := by
    rw [List.filter_eq_nil_iff]
    intro it _
    simp
  rw [h1]
  simp

theorem count_insertOrReplace_other (db : List Item) (q q' : Path) (ty : List Char)
    (h : q' ≠ q) :
    (insertOrReplace db q' ty).filter (fun it => it.path == q)
      = db.filter (fun it => it.path == q) := by
  simp only [insertOrReplace, List.filter_append, List.filter_filter]
  have h1 : db.filter (fun it => (it.path == q) && (it.path != q'))
      = db.filter (fun it => it.path == q) := by
    apply List.filter_congr
    intro it _
    by_cases e : it.path = q
    · simp [e, Ne.symm h]
    · simp [e]
  rw [h1]
  simp [h]

theorem count_foldl_upsert (q : Path) (l : List FileChange) :
    ∀ db : List Item,
      ((db.filter (fun it => it.path == q)).length = 1 ∨ ∃ ch ∈ l, ch.path = q) →
      ((l.foldl (fun db change => insertOrReplace db change.path [change.type]) db).filter
        (fun it => it.path == q)).length = 1 := by
  induction l with
  | nil =>
    intro db h
    rcases h with h | ⟨ch, hch, _⟩
    · exact h
    · simp at hch
  | cons c more ih =>
    intro db h
    simp only [List.foldl_cons]
    apply ih
    by_cases hc : c.path = q
    · left
      rw [hc]
      exact count_insertOrReplace_self db q _
    · rcases h with h | ⟨ch, hch, hq⟩
      · left
        rw [count_insertOrReplace_other db q c.path _ hc]
        exact h
      · right
        rcases List.mem_cons.mp hch with rfl | hm
        · exact absurd hq hc
        · exact ⟨ch, hm, hq⟩

theorem mem_foldl_upsert_of_other (l : List FileChange) :
    ∀ (db : List Item) (it : Item), it.path ∉ l.map (fun ch => ch.path) →
      (it ∈ l.foldl (fun db change => insertOrReplace db change.path [change.type]) db
        ↔ it ∈ db) := by
  induction l with
  | nil => intro db it _; rfl
  | cons c more ih =>
    intro db it h
    simp only [List.map_cons, List.mem_cons, not_or] at h
    simp only [List.foldl_cons]
    rw [ih _ it h.2, mem_insertOrReplace]
    constructor
    · rintro (⟨hd, _⟩ | rfl)
      · exact hd
      · exact absurd rfl h.1
    · intro hd
      exact Or.inl ⟨hd, h.1⟩

/-- C9. One tick of the insert worker at time now splits g_pendingInserts by age:
the entries that stay are exactly those younger than 15000 ms, in their old
order; the index is the old one after one INSERT OR REPLACE per entry of age
15000 ms or more, in their old order, so that each of their paths has exactly
one row afterwards and rows with other paths are untouched; the moved and the
remaining entries together are a rearrangement of the old staging list.  The
handling of a Created record adds one staged entry and leaves the index as it is. -/
theorem promotion_tick_partitions_staging (now : Int) (st : WatchState) :
    (StartInsertWorker.tick now st).pending
      = st.pending.filter (fun ch => decide (now - ch.timestamp < 15000)) ∧
    (StartInsertWorker.tick now st).items
      = (st.pending.filter (fun ch => decide (now - ch.timestamp ≥ 15000))).foldl
          (fun db change => insertOrReplace db change.path [change.type]) st.items ∧
    (st.pending.filter (fun ch => decide (now - ch.timestamp ≥ 15000))
      ++ (StartInsertWorker.tick now st).pending).Perm st.pending ∧
    (StartInsertWorker.tick now st).pending.Sublist st.pending ∧
    (∀ ch ∈ st.pending, now - ch.timestamp ≥ 15000 →
      ch ∉ (StartInsertWorker.tick now st).pending ∧
      ((StartInsertWorker.tick now st).items.filter (fun it => it.path == ch.path)).length = 1) ∧
    (∀ ch ∈ st.pending, now - ch.timestamp < 15000 →
      ch ∈ (StartInsertWorker.tick now st).pending) ∧
    (∀ it : Item,
      it.path ∉ (st.pending.filter (fun ch => decide (now - ch.timestamp ≥ 15000))).map
        (fun ch => ch.path) →
      (it ∈ (StartInsertWorker.tick now st).items ↔ it ∈ st.items)) ∧
    (∀ (attributes : Path → Nat) (rootPath relative oldName : Path),
      (MonitorDrive.handleRecord attributes now rootPath (st, oldName)
          { action := Action.added, relative := relative }).1
        = { items := st.items,
            pending := st.pending ++
              [{ path := rootPath ++ relative, status := FileStatus.Created,
                 type := DetectFileType attributes (rootPath ++ relative),
                 timestamp := now }] }) := by
  have hp : (StartInsertWorker.tick now st).pending
      = st.pending.filter (fun ch => decide (now - ch.timestamp < 15000)) :=
    scanPending_snd now st.pending
  have hi : (StartInsertWorker.tick now st).items
      = (st.pending.filter (fun ch => decide (now - ch.timestamp ≥ 15000))).foldl
          (fun db change => insertOrReplace db change.path [change.type]) st.items := by
    simp only [StartInsertWorker.tick, scanPending_fst]
  have hneg : (fun ch : FileChange => decide (now - ch.timestamp < 15000))
      = (fun ch => !decide (now - ch.timestamp ≥ 15000)) := by
    funext ch
    by_cases h : now - ch.timestamp ≥ 15000
    · have h2 : ¬ now - ch.timestamp < 15000 := by omega
      simp [h, h2]
    · have h2 : now - ch.timestamp < 15000 := by omega
      simp [h, h2]
  refine ⟨hp, hi, ?_, ?_, ?_, ?_, ?_, ?_⟩
  · rw [hp, hneg]
    exact List.filter_append_perm _ _
  · rw [hp]
    exact List.filter_sublist _
  · intro ch hch hage
    constructor
    · rw [hp, List.mem_filter]
      intro hmem
      have := hmem.2
      simp only [decide_eq_true_eq] at this
      omega
    · rw [hi]
      apply count_foldl_upsert
      right
      exact ⟨ch, List.mem_filter.mpr ⟨hch, by simpa using hage⟩, rfl⟩
  · intro ch hch hage
    rw [hp, List.mem_filter]
    exact ⟨hch, by simpa using hage⟩
  · intro it hnot
    rw [hi]
    exact mem_foldl_upsert_of_other _ _ it hnot
  · intro attributes rootPath relative oldName
    rfl

/-- C9 at stagedState and time 20000: the entry staged at 5000 is written to the
index (replacing the old row of its path, with priority 0), the one staged at
5001 stays. -/
theorem promotion_tick_partitions_staging_witness :
    StartInsertWorker.tick 20000 stagedState
      = { items := [{ path := "C:\\old.txt".toList, type := ['f'], priority := 0 }],
          pending := [{ path := "C:\\new.txt".toList, status := FileStatus.Created,
                        type := 'f', timestamp := 5001 }] } ∧
    ((StartInsertWorker.tick 20000 stagedState).items.filter
      (fun it => it.path == "C:\\old.txt".toList)).length = 1 :=
  ⟨by decide,
    ((promotion_tick_partitions_staging 20000 stagedState).2.2.2.2.1
      { path := "C:\\old.txt".toList, status := FileStatus.Created, type := 'f',
        timestamp := 5000 } (by decide) (by decide)).2⟩

/-! ## C10: the staleness policy -/

theorem find_setRecordedBootTime (rows : List ScanMetadata) (bootTime : List Char) :
    (setRecordedBootTime rows bootTime).find? (fun row => row.id == 1)
      = (rows.find? (fun row => row.id == 1)).map
          (fun row => { row with last_boot_time := bootTime }) := by
  induction rows with
  | nil => rfl
  | cons r rs ih =>
    unfold setRecordedBootTime at ih ⊢
    rw [List.map_cons]
    by_cases h : r.id = 1
    · have hr : (if (r.id == 1) = true then
          ({ r with last_boot_time := bootTime } : ScanMetadata) else r)
          = { r with last_boot_time := bootTime } := by simp [h]
      rw [hr, List.find?_cons_of_pos _ (by simp [h]), List.find?_cons_of_pos _ (by simp [h])]
      rfl
    · have hr : (if (r.id == 1) = true then
          ({ r with last_boot_time := bootTime } : ScanMetadata) else r) = r := by simp [h]
      rw [hr, List.find?_cons_of_neg _ (by simp [h]), List.find?_cons_of_neg _ (by simp [h])]
      exact ih

theorem shouldScan_eq_false_iff (db : Option (List ScanMetadata)) (currentBootTime : List Char) :
    shouldScan db currentBootTime = false ↔
      ∃ rows row, db = some rows ∧ rows.find? (fun r => r.id == 1) = some row ∧
        row.last_boot_time = currentBootTime ∧ row.scan_status = "complete".toList := by
  cases db with
  | none => simp [shouldScan]
  | some rows =>
    cases hf : rows.find? (fun r => r.id == 1) with
    | none => simp [shouldScan, hf]
    | some row =>
      by_cases hb : currentBootTime = row.last_boot_time
      · by_cases hs : row.scan_status = "complete".toList
        · simp only [shouldScan, hf]
          rw [if_neg (not_not.mpr hb), if_neg (not_not.mpr hs)]
          simp only [true_iff]
          exact ⟨rows, row, rfl, hf, hb.symm, hs⟩
        · simp only [shouldScan, hf]
          rw [if_neg (not_not.mpr hb), if_pos hs]
          simp only [Bool.true_eq_false, false_iff]
          rintro ⟨rows', row', h1, h2, _, h4⟩
          cases h1
          rw [hf] at h2
          cases h2
          exact hs h4
      · simp only [shouldScan, hf]
        rw [if_pos hb]
        simp only [Bool.true_eq_false, false_iff]
        rintro ⟨rows', row', h1, h2, h3, _⟩
        cases h1
        rw [hf] at h2
        cases h2
        exact hb h3.symm

/-- C10. The function shouldScan returns false exactly when the store opens, the
query for the scan_metadata row with id 1 gives a row, its recorded boot time
equals the current boot time and its recorded status is "complete"; in every
other case it returns true.  So when the store does not open, when there is no
such row, when the boot times differ or when the status is anything else, the
result is true; and changing only the recorded boot time of the row, to a value
other than the current boot time, makes shouldScan return true whatever the
status was. -/
theorem shouldScan_false_iff_complete_same_boot :
    (∀ (db : Option (List ScanMetadata)) (currentBootTime : List Char),
      (shouldScan db currentBootTime = false ↔
        ∃ rows row, db = some rows ∧ rows.find? (fun r => r.id == 1) = some row ∧
          row.last_boot_time = currentBootTime ∧ row.scan_status = "complete".toList) ∧
      (shouldScan db currentBootTime = true ↔
        ¬ ∃ rows row, db = some rows ∧ rows.find? (fun r => r.id == 1) = some row ∧
          row.last_boot_time = currentBootTime ∧ row.scan_status = "complete".toList)) ∧
    (∀ currentBootTime : List Char, shouldScan none currentBootTime = true) ∧
    (∀ (rows : List ScanMetadata) (currentBootTime : List Char),
      rows.find? (fun r => r.id == 1) = none → shouldScan (some rows) currentBootTime = true) ∧
    (∀ (rows : List ScanMetadata) (row : ScanMetadata) (currentBootTime : List Char),
      rows.find? (fun r => r.id == 1) = some row →
      (row.last_boot_time ≠ currentBootTime ∨ row.scan_status ≠ "complete".toList) →
      shouldScan (some rows) currentBootTime = true) ∧
    (∀ (rows : List ScanMetadata) (currentBootTime changed : List Char),
      changed ≠ currentBootTime →
      shouldScan (some (setRecordedBootTime rows changed)) currentBootTime = true) := by
  refine ⟨?_, ?_, ?_, ?_, ?_⟩
  · intro db currentBootTime
    refine ⟨shouldScan_eq_false_iff db currentBootTime, ?_⟩
    rw [← shouldScan_eq_false_iff]
    simp
  · intro currentBootTime
    rfl
  · intro rows currentBootTime h
    simp [shouldScan, h]
  · intro rows row currentBootTime h hne
    cases hs : shouldScan (some rows) currentBootTime with
    | true => rfl
    | false =>
      obtain ⟨rows', row', h1, h2, h3, h4⟩ := (shouldScan_eq_false_iff _ _).mp hs
      cases h1
      rw [h] at h2
      cases h2
      rcases hne with hne | hne
      · exact absurd h3 hne
      · exact absurd h4 hne
  · intro rows currentBootTime changed hne
    cases hs : shouldScan (some (setRecordedBootTime rows changed)) currentBootTime with
    | true => rfl
    | false =>
      obtain ⟨rows', row', h1, h2, h3, _⟩ := (shouldScan_eq_false_iff _ _).mp hs
      cases h1
      rw [find_setRecordedBootTime] at h2
      cases hf : rows.find? (fun r => r.id == 1) with
      | none => rw [hf] at h2; simp at h2
      | some r0 =>
        rw [hf] at h2
        simp only [Option.map_some', Option.some.injEq] at h2
        rw [← h2] at h3
        exact absurd h3 hne

/-- C10 at completedScan: with the recorded boot time equal to the current one no
scan is needed; after the recorded boot time alone has been changed, a scan is. -/
theorem shouldScan_false_iff_complete_same_boot_witness :
    shouldScan (some completedScan) "2025-01-02T07:30:00Z".toList = false ∧
    "2025-01-01T00:00:00Z".toList ≠ "2025-01-02T07:30:00Z".toList ∧
    shouldScan (some (setRecordedBootTime completedScan "2025-01-01T00:00:00Z".toList))
      "2025-01-02T07:30:00Z".toList = true :=
  ⟨by decide, by decide,
    shouldScan_false_iff_complete_same_boot.2.2.2.2 completedScan
      "2025-01-02T07:30:00Z".toList "2025-01-01T00:00:00Z".toList (by decide)⟩

/-! ## C11: the batched insert of the crawler is idempotent and keeps old rows -/

theorem insertOrIgnore_of_mem (items : List Item) (row : FileItem)
    (h : row.path ∈ paths items) : insertOrIgnore items row = items := by
  unfold insertOrIgnore
  have : items.any (fun it => it.path == row.path) = true := by
    simp only [paths, List.mem_map] at h
    obtain ⟨it, hit, hp⟩ := h
    exact List.any_eq_true.mpr ⟨it, hit, by simp [hp]⟩
  rw [if_pos this]

theorem insertOrIgnore_of_not_mem (items : List Item) (row : FileItem)
    (h : row.path ∉ paths items) : insertOrIgnore items row = items ++ [row.toItem] := by
  unfold insertOrIgnore
  have : ¬ items.any (fun it => it.path == row.path) = true := by
    intro hany
    obtain ⟨it, hit, hp⟩ := List.any_eq_true.mp hany
    apply h
    simp only [paths, List.mem_map]
    exact ⟨it, hit, by simpa using hp⟩
  rw [if_neg this]
  rfl

/-- The batch only appends rows: rows for staged records whose path was not in
the table, each path once. -/
theorem batchInsertToDB_appends (staged : List FileItem) :
    ∀ items : List Item, ∃ added : List Item,
      batchInsertToDB items staged = items ++ added ∧
      (∀ a ∈ added, a.path ∉ paths items ∧ ∃ row ∈ staged, a = row.toItem) ∧
      (paths added).Nodup ∧
      (∀ row ∈ staged, row.path ∈ paths (items ++ added)) := by
  induction staged with
  | nil =>
    intro items
    exact ⟨[], by simp [batchInsertToDB], by simp, by simp [paths], by simp⟩
  | cons row more ih =>
    intro items
    by_cases h : row.path ∈ paths items
    · obtain ⟨added, h1, h2, h3, h4⟩ := ih items
      refine ⟨added, ?_, ?_, h3, ?_⟩
      · simp only [batchInsertToDB, List.foldl_cons, insertOrIgnore_of_mem items row h]
        exact h1
      · intro a ha
        obtain ⟨h5, r, hr, h6⟩ := h2 a ha
        exact ⟨h5, r, List.mem_cons_of_mem _ hr, h6⟩
      · intro r hr
        rcases List.mem_cons.mp hr with rfl | hr
        · simp only [paths, List.map_append, List.mem_append] at h ⊢
          exact Or.inl h
        · exact h4 r hr
    · obtain ⟨added, h1, h2, h3, h4⟩ := ih (items ++ [row.toItem])
      refine ⟨row.toItem :: added, ?_, ?_, ?_, ?_⟩
      · simp only [batchInsertToDB, List.foldl_cons, insertOrIgnore_of_not_mem items row h]
        rw [show List.foldl insertOrIgnore (items ++ [row.toItem]) more
          = batchInsertToDB (items ++ [row.toItem]) more from rfl, h1]
        simp
      · intro a ha
        rcases List.mem_cons.mp ha with rfl | ha
        · exact ⟨h, row, List.mem_cons_self _ _, rfl⟩
        · obtain ⟨h5, r, hr, h6⟩ := h2 a ha
          refine ⟨?_, r, List.mem_cons_of_mem _ hr, h6⟩
          intro hmem
          apply h5
          simp only [paths, List.map_append, List.mem_append] at hmem ⊢
          exact Or.inl hmem
      · simp only [paths, List.map_cons, List.nodup_cons]
        refine ⟨?_, h3⟩
        intro hmem
        simp only [List.mem_map] at hmem
        obtain ⟨a, ha, hp⟩ := hmem
        apply (h2 a ha).1
        simp only [paths, List.map_append, List.mem_append, List.map_cons, List.map_nil,
          List.mem_singleton]
        exact Or.inr hp
      · intro r hr
        have e : items ++ row.toItem :: added = (items ++ [row.toItem]) ++ added := by simp
        rw [e]
        rcases List.mem_cons.mp hr with rfl | hr
        · simp only [paths, List.map_append, List.mem_append, List.map_cons, List.map_nil,
            List.mem_singleton]
          exact Or.inl (Or.inr rfl)
        · exact h4 r hr

theorem batchInsertToDB_of_all_mem (staged : List FileItem) :
    ∀ items : List Item, (∀ row ∈ staged, row.path ∈ paths items) →
      batchInsertToDB items staged = items := by
  induction staged with
  | nil => intro items _; rfl
  | cons row more ih =>
    intro items h
    simp only [batchInsertToDB, List.foldl_cons,
      insertOrIgnore_of_mem items row (h row (List.mem_cons_self _ _))]
    exact ih items (fun r hr => h r (List.mem_cons_of_mem _ hr))

/-- C11. The batched write of the crawler (one INSERT OR IGNORE per staged record)
is idempotent and does not destroy anything: applying the same batch a second
time leaves the index as the first application made it; the old index is an
initial part of the new one, so every old row is kept with its type and
priority, and a row of the new index whose path was in the old index is an old
row; every staged path is in the index afterwards; and the paths stay free of
duplicates. -/
theorem batch_insert_idempotent_and_keeps_rows (items : List Item) (staged : List FileItem) :
    batchInsertToDB (batchInsertToDB items staged) staged = batchInsertToDB items staged ∧
    items <+: batchInsertToDB items staged ∧
    (∀ it ∈ batchInsertToDB items staged, it.path ∈ paths items → it ∈ items) ∧
    (∀ it ∈ batchInsertToDB items staged, it ∈ items ∨ ∃ row ∈ staged, it = row.toItem) ∧
    (∀ row ∈ staged, row.path ∈ paths (batchInsertToDB items staged)) ∧
    ((paths items).Nodup → (paths (batchInsertToDB items staged)).Nodup) := by
  obtain ⟨added, h1, h2, h3, h4⟩ := batchInsertToDB_appends staged items
  rw [h1]
  refine ⟨?_, ⟨added, rfl⟩, ?_, ?_, h4, ?_⟩
  · exact batchInsertToDB_of_all_mem staged _ h4
  · intro it hit hp
    rcases List.mem_append.mp hit with h | h
    · exact h
    · exact absurd hp (h2 it h).1
  · intro it hit
    rcases List.mem_append.mp hit with h | h
    · exact Or.inl h
    · exact Or.inr (h2 it h).2
  · intro hnd
    simp only [paths, List.map_append]
    refine List.Nodup.append hnd h3 ?_
    intro p hp1 hp2
    simp only [List.mem_map] at hp2
    obtain ⟨a, ha, rfl⟩ := hp2
    exact (h2 a ha).1 hp1

/-- C11 at sampleBatchIndex and sampleBatch: the row of C:\\a keeps its type d and
priority 1, the row of C:\\b is added, and a second application changes nothing. -/
theorem batch_insert_idempotent_and_keeps_rows_witness :
    batchInsertToDB sampleBatchIndex sampleBatch
      = [{ path := "C:\\\\a".toList, type := "d".toList, priority := 1 },
         { path := "C:\\\\b".toList, type := "f".toList, priority := 0 }] ∧
    batchInsertToDB (batchInsertToDB sampleBatchIndex sampleBatch) sampleBatch
      = batchInsertToDB sampleBatchIndex sampleBatch ∧
    (paths (batchInsertToDB sampleBatchIndex sampleBatch)).Nodup :=
  ⟨by decide,
    (batch_insert_idempotent_and_keeps_rows sampleBatchIndex sampleBatch).1,
    (batch_insert_idempotent_and_keeps_rows sampleBatchIndex sampleBatch).2.2.2.2.2
      (by decide)⟩

/-! ## C12: the priority computed by getPriorityFromPath -/

theorem hasInfix_iff (needle hay : List Char) :
    hasInfix needle hay = true ↔ needle <:+: hay := by
  induction hay with
  | nil =>
    simp only [hasInfix, List.isEmpty_iff, List.infix_nil]
  | cons c cs ih =>
    simp only [hasInfix, Bool.or_eq_true, ih, List.infix_cons_iff, List.isPrefixOf_iff_prefix]

theorem getPriorityFromPath_eq_one_iff (path : Path) :
    getPriorityFromPath path = 1 ↔
      ∃ keyword ∈ highPriorityKeywords, keyword <:+: toLower path := by
  unfold getPriorityFromPath
  by_cases h : highPriorityKeywords.any (fun keyword => hasInfix keyword (path.map Char.toLower))
      = true
  · simp only [h, if_true, true_iff]
    obtain ⟨k, hk, hi⟩ := List.any_eq_true.mp h
    exact ⟨k, hk, (hasInfix_iff _ _).mp hi⟩
  · simp only [h, Bool.false_eq_true, if_false]
    constructor
    · intro h0
      exact absurd h0 (by decide)
    · rintro ⟨k, hk, hi⟩
      exact absurd (List.any_eq_true.mpr ⟨k, hk, (hasInfix_iff k (toLower path)).mpr hi⟩) h

/-- C12, as stated, fails.  The path L:\data\report.bin is on a drive other than
C, and the lower-cased path C:\mydocuments\a.txt contains the folder name
documents, so the rule of the specification gives both the priority 1; the
function getPriorityFromPath gives both 0, because its keyword list has no entry
for the drive L and its folder keywords begin with a backslash. -/
theorem priority_rule_counterexample :
    specPriority "L:\\data\\report.bin".toList = 1 ∧
    getPriorityFromPath "L:\\data\\report.bin".toList = 0 ∧
    specPriority "C:\\mydocuments\\a.txt".toList = 1 ∧
    getPriorityFromPath "C:\\mydocuments\\a.txt".toList = 0 ∧
    ¬ (∀ path : Path, getPriorityFromPath path = specPriority path) := by
  refine ⟨by decide, by decide, by decide, by decide, ?_⟩
  intro h
  exact absurd (h "L:\\data\\report.bin".toList) (by decide)

/-- C12, amended.  For every path, getPriorityFromPath returns 1 exactly when the
lower-cased path contains one of its 17 keywords (a backslash followed by
documents, desktop, downloads, pictures, videos or music, or one of the drive
prefixes d:\ e:\ f:\ g:\ h:\ i:\ j:\ k:\ x:\ y:\ z:\), and 0 otherwise; two
paths with the same lower-casing get the same priority. -/
theorem priority_is_keyword_match :
    highPriorityKeywords =
      ["\\documents", "\\desktop", "\\downloads", "\\pictures", "\\videos", "\\music",
        "d:\\", "e:\\", "f:\\", "g:\\", "h:\\", "i:\\", "j:\\", "k:\\", "x:\\", "y:\\",
        "z:\\"].map String.toList ∧
    (∀ path : Path,
      (getPriorityFromPath path = 1 ↔
        ∃ keyword ∈ highPriorityKeywords, keyword <:+: toLower path) ∧
      (getPriorityFromPath path = 0 ↔
        ¬ ∃ keyword ∈ highPriorityKeywords, keyword <:+: toLower path) ∧
      (getPriorityFromPath path = 0 ∨ getPriorityFromPath path = 1)) ∧
    (∀ p q : Path, toLower p = toLower q → getPriorityFromPath p = getPriorityFromPath q) := by
  refine ⟨rfl, ?_, ?_⟩
  · intro path
    have h1 := getPriorityFromPath_eq_one_iff path
    have h01 : getPriorityFromPath path = 0 ∨ getPriorityFromPath path = 1 := by
      simp only [getPriorityFromPath]
      split_ifs
      · exact Or.inr rfl
      · exact Or.inl rfl
    refine ⟨h1, ?_, h01⟩
    rw [← h1]
    rcases h01 with h | h <;> simp [h]
  · intro p q h
    unfold getPriorityFromPath
    have : p.map Char.toLower = q.map Char.toLower := h
    rw [this]

/-- C12, amended, at two spellings of one path under a Documents folder. -/
theorem priority_is_keyword_match_witness :
    toLower "C:\\Users\\a\\Documents\\x.txt".toList
      = toLower "c:\\users\\A\\DOCUMENTS\\X.TXT".toList ∧
    getPriorityFromPath "C:\\Users\\a\\Documents\\x.txt".toList
      = getPriorityFromPath "c:\\users\\A\\DOCUMENTS\\X.TXT".toList ∧
    getPriorityFromPath "C:\\Users\\a\\Documents\\x.txt".toList = 1 :=
  ⟨by decide,
    priority_is_keyword_match.2.2 _ _ (by decide),
    by decide⟩

/-! ## C18: watcher inserts store the default priority -/

theorem priority_foldl_upsert (q : Path) (l : List FileChange) :
    ∀ db : List Item,
      ((∀ it ∈ db, it.path = q → it.priority = 0) ∨ ∃ ch ∈ l, ch.path = q) →
      ∀ it ∈ l.foldl (fun db change => insertOrReplace db change.path [change.type]) db,
        it.path = q → it.priority = 0 := by
  induction l with
  | nil =>
    intro db h
    rcases h with h | ⟨ch, hch, _⟩
    · exact h
    · simp at hch
  | cons c more ih =>
    intro db h
    simp only [List.foldl_cons]
    apply ih
    by_cases hc : c.path = q
    · left
      intro it hit hp
      rcases (mem_insertOrReplace _ _ _ _).mp hit with ⟨_, hne⟩ | rfl
      · exact absurd (hp.trans hc.symm) hne
      · rfl
    · rcases h with h | ⟨ch, hch, hq⟩
      · left
        intro it hit hp
        rcases (mem_insertOrReplace _ _ _ _).mp hit with ⟨hd, _⟩ | rfl
        · exact h it hd hp
        · rfl
      · right
        rcases List.mem_cons.mp hch with rfl | hm
        · exact absurd hq hc
        · exact ⟨ch, hm, hq⟩

/-- C18. A row written by the watcher carries the default priority 0, whatever
getPriorityFromPath gives for its path and whatever was stored before: after a
rename pair every row of the new path has priority 0, and after a tick of the
insert worker every row of a promoted path has priority 0.  For the path
C:\Users\a\Documents\x.txt the crawler stores priority 1, and promoting a staged
creation of it replaces a priority 1 row by a priority 0 row. -/
theorem watcher_insert_stores_default_priority :
    (∀ (attributes : Path → Nat) (now : Int) (rootPath relP relQ : Path) (st : WatchState),
      ∀ it ∈ (MonitorDrive.handleBatch attributes now rootPath st
          [{ action := Action.renamedOldName, relative := relP },
           { action := Action.renamedNewName, relative := relQ }]).items,
        it.path = rootPath ++ relQ → it.priority = 0) ∧
    (∀ (now : Int) (st : WatchState), ∀ ch ∈ st.pending, now - ch.timestamp ≥ 15000 →
      ∀ it ∈ (StartInsertWorker.tick now st).items, it.path = ch.path → it.priority = 0) ∧
    getPriorityFromPath "C:\\Users\\a\\Documents\\x.txt".toList = 1 ∧
    (StartInsertWorker.tick 15000
        { items := [{ path := "C:\\Users\\a\\Documents\\x.txt".toList, type := "f".toList,
                      priority := 1 }],
          pending := [{ path := "C:\\Users\\a\\Documents\\x.txt".toList,
                        status := FileStatus.Created, type := 'f', timestamp := 0 }] }).items
      = [{ path := "C:\\Users\\a\\Documents\\x.txt".toList, type := ['f'], priority := 0 }] := by
  refine ⟨?_, ?_, by decide, by decide⟩
  · intro attributes now rootPath relP relQ st it hit hp
    have hb : (MonitorDrive.handleBatch attributes now rootPath st
        [{ action := Action.renamedOldName, relative := relP },
         { action := Action.renamedNewName, relative := relQ }]).items
        = insertOrReplace (deleteByPath st.items (rootPath ++ relP)) (rootPath ++ relQ)
            [DetectFileType attributes (rootPath ++ relQ)] := rfl
    rw [hb] at hit
    rcases (mem_insertOrReplace _ _ _ _).mp hit with ⟨_, hne⟩ | rfl
    · exact absurd hp hne
    · rfl
  · intro now st ch hch hage it hit hp
    have hi : (StartInsertWorker.tick now st).items
        = (st.pending.filter (fun ch => decide (now - ch.timestamp ≥ 15000))).foldl
            (fun db change => insertOrReplace db change.path [change.type]) st.items := by
      simp only [StartInsertWorker.tick, scanPending_fst]
    rw [hi] at hit
    refine priority_foldl_upsert ch.path _ st.items (Or.inr ⟨ch, ?_, rfl⟩) it hit hp
    exact List.mem_filter.mpr ⟨hch, by simpa using hage⟩

/-- C18 at stagedState and time 20000: the promoted path C:\old.txt, stored with
priority 1 before, has priority 0 afterwards. -/
theorem watcher_insert_stores_default_priority_witness :
    (20000 : Int) - 5000 ≥ 15000 ∧
    ∀ it ∈ (StartInsertWorker.tick 20000 stagedState).items,
      it.path = "C:\\old.txt".toList → it.priority = 0 :=
  ⟨by decide,
    watcher_insert_stores_default_priority.2.1 20000 stagedState
      { path := "C:\\old.txt".toList, status := FileStatus.Created, type := 'f',
        timestamp := 5000 } (by decide) (by decide)⟩

/-! ## C15: the schema invariant of the items table -/

theorem apply_launched (ui : SearchUi) (ev : UiEvent) :
    (ev.apply ui).launched = ui.launched ∨
      (ev = UiEvent.timeout ∧ 3 ≤ qLength (trimmed ui.text) ∧
        (ev.apply ui).launched = ui.launched ++ [trimmed ui.text]) := by
  cases ev with
  | textChanged now text =>
    left
    simp only [UiEvent.apply, textChanged]
    split_ifs <;> rfl
  | timeout =>
    by_cases ht : ui.timer.isSome = true
    · by_cases h1 : qLength (trimmed ui.text) < 3
      · left
        simp [UiEvent.apply, debounceTimeout, ht, h1]
      · by_cases h2 : (trimmed ui.text).isEmpty = true
        · left
          simp [UiEvent.apply, debounceTimeout, ht, h1, h2]
        · right
          refine ⟨rfl, by omega, ?_⟩
          simp [UiEvent.apply, debounceTimeout, ht, h1, h2]
    · left
      simp [UiEvent.apply, ht]
  | finished results =>
    left
    simp only [UiEvent.apply, searchFinished]
    split_ifs <;> rfl

theorem apply_text (ui : SearchUi) (ev : UiEvent) :
    (ev.apply ui).text = ui.text ∨ ∃ now, ev = UiEvent.textChanged now (ev.apply ui).text := by
  cases ev with
  | textChanged now text =>
    right
    refine ⟨now, ?_⟩
    simp only [UiEvent.apply, textChanged]
    split_ifs <;> rfl
  | timeout =>
    left
    simp only [UiEvent.apply, debounceTimeout]
    split_ifs <;> rfl
  | finished results =>
    left
    simp only [UiEvent.apply, searchFinished]
    split_ifs <;> rfl

/-- C13. When the trimmed text is shorter than 3, textChanged stops the debounce
timer, clears lastResults and hides the result list, and neither it nor the
timeout handler starts a search.  So in every sequence of events in which the
text stays shorter than 3 no search is started, and in every sequence of events
whatever each query for which a search is started has length at least 3. -/
theorem short_text_never_starts_search :
    (∀ (now : Int) (text : Path) (ui : SearchUi), qLength (trimmed text) < 3 →
      textChanged now text ui
        = { text := text, timer := none, lastResults := [], listVisible := false,
            status := StatusLabel.lastScanned, running := ui.running,
            launched := ui.launched }) ∧
    (∀ ui : SearchUi, qLength (trimmed ui.text) < 3 →
      debounceTimeout ui = { ui with timer := none, listVisible := false }) ∧
    (∀ (events : List UiEvent) (ui : SearchUi), qLength (trimmed ui.text) < 3 →
      (∀ now text, UiEvent.textChanged now text ∈ events → qLength (trimmed text) < 3) →
      (runUi events ui).launched = ui.launched) ∧
    (∀ (events : List UiEvent) (ui : SearchUi),
      ∀ q ∈ (runUi events ui).launched, q ∈ ui.launched ∨ 3 ≤ qLength q) := by
  refine ⟨?_, ?_, ?_, ?_⟩
  · intro now text ui h
    simp only [textChanged, h, if_true]
  · intro ui h
    simp only [debounceTimeout, h, if_true]
  · intro events
    induction events with
    | nil => intro ui _ _; rfl
    | cons ev more ih =>
      intro ui hshort hall
      have htext : qLength (trimmed (ev.apply ui).text) < 3 := by
        rcases apply_text ui ev with h | ⟨now, h⟩
        · rw [h]; exact hshort
        · exact hall now _ (by rw [← h]; exact List.mem_cons_self _ _)
      have hl : (ev.apply ui).launched = ui.launched := by
        rcases apply_launched ui ev with h | ⟨_, h, _⟩
        · exact h
        · omega
      simp only [runUi, List.foldl_cons] at ih ⊢
      rw [ih (ev.apply ui) htext (fun now text hm => hall now text (List.mem_cons_of_mem _ hm)),
        hl]
  · intro events
    induction events with
    | nil => intro ui q hq; exact Or.inl hq
    | cons ev more ih =>
      intro ui q hq
      simp only [runUi, List.foldl_cons] at ih hq
      rcases ih (ev.apply ui) q hq with h | h
      · rcases apply_launched ui ev with h2 | ⟨_, h3, h4⟩
        · rw [h2] at h
          exact Or.inl h
        · rw [h4, List.mem_append, List.mem_singleton] at h
          rcases h with h | rfl
          · exact Or.inl h
          · exact Or.inr h3
      · exact Or.inr h

/-- C13 at the text ab typed at time 0 into the fresh search box, with the timer
fired afterwards all the same: no search is started. -/
theorem short_text_never_starts_search_witness :
    qLength (trimmed "ab".toList) < 3 ∧
    (runUi [UiEvent.textChanged 0 "ab".toList, UiEvent.timeout] initialUi).launched
      = initialUi.launched :=
  ⟨by decide,
    short_text_never_starts_search.2.2.1 [UiEvent.textChanged 0 "ab".toList, UiEvent.timeout]
      initialUi (by decide) (by
        intro now text h
        simp only [List.mem_cons, List.mem_singleton, List.not_mem_nil, or_false,
          UiEvent.textChanged.injEq, reduceCtorEq] at h
        rw [h.2]
        decide)⟩

/-! ## C14: the debounce of a burst of text changes -/

theorem advance_of_no_timer (now : Int) (ui : SearchUi) (h : ui.timer = none) :
    advance now ui = ui := by
  simp [advance, h]

theorem advance_before_expiry (now expiry : Int) (ui : SearchUi) (h : ui.timer = some expiry)
    (hlt : now < expiry) : advance now ui = ui := by
  have : ¬ expiry ≤ now := by omega
  simp [advance, h, this]

theorem textChanged_facts (now : Int) (text : Path) (ui : SearchUi) :
    (textChanged now text ui).launched = ui.launched ∧
    (textChanged now text ui).text = text ∧
    (textChanged now text ui).timer
      = if qLength (trimmed text) < 3 then none else some (now + debounceDelayMs) := by
  unfold textChanged
  split_ifs <;> exact ⟨rfl, rfl, rfl⟩

/-- After a burst of text changes no search has been started, the text is the
last one and the timer runs from the last change if that text is long enough. -/
theorem burst_state (l : List (Int × Path)) (h : rapid l) :
    (l.foldl typeText initialUi).launched = [] ∧
    (l.getLast? = none → (l.foldl typeText initialUi).timer = none) ∧
    (∀ a, l.getLast? = some a →
      (l.foldl typeText initialUi).text = a.2 ∧
      (l.foldl typeText initialUi).timer
        = if qLength (trimmed a.2) < 3 then none else some (a.1 + debounceDelayMs)) := by
  induction l using List.reverseRecOn with
  | nil =>
    exact ⟨rfl, fun _ => rfl, fun a ha => by simp at ha⟩
  | append_singleton l a ih =>
    obtain ⟨hl, _, hlast⟩ := List.chain'_append.mp h
    obtain ⟨ih1, ih2, ih3⟩ := ih hl
    have hadv : advance a.1 (l.foldl typeText initialUi) = l.foldl typeText initialUi := by
      cases hg : l.getLast? with
      | none => exact advance_of_no_timer _ _ (ih2 hg)
      | some b =>
        have hb := (ih3 b hg).2
        have hR := hlast b (by rw [hg]; rfl) a (by simp)
        simp only [followsRapidly, Bool.and_eq_true, Bool.or_eq_true, decide_eq_true_eq] at hR
        by_cases hs : qLength (trimmed b.2) < 3
        · rw [if_pos hs] at hb
          exact advance_of_no_timer _ _ hb
        · rw [if_neg hs] at hb
          rcases hR.2 with h3 | h3
          · exact absurd h3 hs
          · exact advance_before_expiry _ _ _ hb h3
    have hf : (l ++ [a]).foldl typeText initialUi
        = textChanged a.1 a.2 (l.foldl typeText initialUi) := by
      rw [List.foldl_append, List.foldl_cons, List.foldl_nil, typeText, hadv]
    obtain ⟨f1, f2, f3⟩ := textChanged_facts a.1 a.2 (l.foldl typeText initialUi)
    rw [hf]
    refine ⟨f1.trans ih1, ?_, ?_⟩
    · intro hn
      simp [List.getLast?_concat] at hn
    · intro c hc
      rw [List.getLast?_concat] at hc
      cases hc
      exact ⟨f2, f3⟩

theorem qLength_pos_not_empty (s : Path) (h : 3 ≤ qLength s) : s.isEmpty = false := by
  cases s with
  | nil => simp [qLength] at h
  | cons c cs => rfl

/-- C14. In a burst of text changes, each arriving before the debounce interval
started by the previous one has elapsed, no search is started while the changes
arrive; afterwards exactly one search is started, for the trimmed text of the
last change, once the interval after the last change has elapsed and if that
text has length at least 3; otherwise none is.  So at most one search is
started in all. -/
theorem debounce_launches_only_last_query (changes : List (Int × Path)) (last : Int × Path)
    (tEnd : Int) (hr : rapid (changes ++ [last])) :
    (∀ pre suf, pre ++ suf = changes ++ [last] →
      (pre.foldl typeText initialUi).launched = []) ∧
    (session (changes ++ [last]) tEnd).launched
      = (if 3 ≤ qLength (trimmed last.2) ∧ last.1 + debounceDelayMs ≤ tEnd
         then [trimmed last.2] else []) ∧
    (session (changes ++ [last]) tEnd).launched.length ≤ 1 := by
  have hmain : (session (changes ++ [last]) tEnd).launched
      = (if 3 ≤ qLength (trimmed last.2) ∧ last.1 + debounceDelayMs ≤ tEnd
         then [trimmed last.2] else []) := by
    obtain ⟨h1, _, h3⟩ := burst_state (changes ++ [last]) hr
    obtain ⟨htext, htimer⟩ := h3 last (List.getLast?_concat _)
    unfold session
    by_cases hs : qLength (trimmed last.2) < 3
    · rw [if_pos hs] at htimer
      rw [advance_of_no_timer _ _ htimer, h1, if_neg (by omega)]
    · rw [if_neg hs] at htimer
      by_cases he : last.1 + debounceDelayMs ≤ tEnd
      · rw [if_pos ⟨by omega, he⟩]
        have hne := qLength_pos_not_empty (trimmed last.2) (by omega)
        simp only [advance, htimer, he, if_true, debounceTimeout, htext, hs, if_false, hne,
          Bool.false_eq_true, h1, List.nil_append]
      · rw [if_neg (fun h => he h.2)]
        rw [advance_before_expiry _ _ _ htimer (by omega), h1]
  refine ⟨?_, hmain, ?_⟩
  · intro pre suf he
    have hp : rapid pre := by
      unfold rapid at hr ⊢
      rw [← he] at hr
      exact (List.chain'_append.mp hr).1
    exact (burst_state pre hp).1
  · rw [hmain]
    split_ifs <;> simp

/-- C14 at the burst ab at time 0, abc at time 500: by time 2500 the only search
started is the one for abc, and at time 2499 none has been started. -/
theorem debounce_launches_only_last_query_witness :
    rapid ([(0, "ab".toList)] ++ [(500, "abc".toList)]) ∧
    (session ([(0, "ab".toList)] ++ [(500, "abc".toList)]) 2500).launched = ["abc".toList] ∧
    (session ([(0, "ab".toList)] ++ [(500, "abc".toList)]) 2499).launched = [] := by
  have hr : rapid ([(0, "ab".toList)] ++ [(500, "abc".toList)]) := by
    unfold rapid
    exact List.chain'_cons.mpr ⟨by decide, List.chain'_singleton _⟩
  refine ⟨hr, ?_, ?_⟩
  · rw [(debounce_launches_only_last_query [(0, "ab".toList)] (500, "abc".toList) 2500 hr).2.1]
    decide
  · rw [(debounce_launches_only_last_query [(0, "ab".toList)] (500, "abc".toList) 2499 hr).2.1]
    decide

/-! ## C16: the termination rendezvous of the worker pool -/

theorem count_set_to_working (ws : List WorkerState) :
    ∀ i : Nat, ws[i]? = some WorkerState.waiting →
      (ws.set i WorkerState.working).count WorkerState.working
        = ws.count WorkerState.working + 1 := by
  induction ws with
  | nil => intro i h; simp at h
  | cons w ws ih =>
    intro i h
    cases i with
    | zero =>
      simp only [List.getElem?_cons_zero, Option.some.injEq] at h
      subst h
      simp [List.count_cons]
    | succ i =>
      simp only [List.getElem?_cons_succ] at h
      simp only [List.set_cons_succ, List.count_cons, ih i h]
      omega

theorem count_set_from_working (ws : List WorkerState) (w' : WorkerState)
    (hw : w' ≠ WorkerState.working) :
    ∀ i : Nat, ws[i]? = some WorkerState.working →
      (ws.set i w').count WorkerState.working + 1 = ws.count WorkerState.working := by
  induction ws with
  | nil => intro i h; simp at h
  | cons w ws ih =>
    intro i h
    cases i with
    | zero =>
      simp only [List.getElem?_cons_zero, Option.some.injEq] at h
      subst h
      simp [List.count_cons, hw]
    | succ i =>
      simp only [List.getElem?_cons_succ] at h
      have := ih i h
      simp only [List.set_cons_succ, List.count_cons]
      omega

theorem count_set_waiting_to_exited (ws : List WorkerState) :
    ∀ i : Nat, ws[i]? = some WorkerState.waiting →
      (ws.set i WorkerState.exited).count WorkerState.working
        = ws.count WorkerState.working := by
  induction ws with
  | nil => intro i h; simp at h
  | cons w ws ih =>
    intro i h
    cases i with
    | zero =>
      simp only [List.getElem?_cons_zero, Option.some.injEq] at h
      subst h
      simp [List.count_cons]
    | succ i =>
      simp only [List.getElem?_cons_succ] at h
      simp only [List.set_cons_succ, List.count_cons, ih i h]

theorem count_pos_of_working (ws : List WorkerState) (i : Nat)
    (h : ws[i]? = some WorkerState.working) : 0 < ws.count WorkerState.working := by
  apply List.count_pos_iff.mpr
  exact List.getElem?_mem h

theorem step_rendezvous (s s' : Pool) (ev : PoolEvent) (h : s.Rendezvous)
    (hs : s.step ev = some s') : s'.Rendezvous := by
  obtain ⟨hcount, hdone⟩ := h
  cases ev with
  | pop i =>
    simp only [Pool.step] at hs
    split_ifs at hs with hw
    cases hq : s.taskQueue with
    | nil => simp [hq] at hs
    | cons task rest =>
      simp only [hq, Option.some.injEq] at hs
      subst hs
      refine ⟨?_, ?_⟩
      · simp only [Pool.busy, count_set_to_working s.workers i hw]
        simp only [Pool.busy] at hcount
        omega
      · intro hd
        have := (hdone hd).1
        rw [hq] at this
        cases this
  | exit i =>
    simp only [Pool.step] at hs
    split_ifs at hs with hw
    simp only [Option.some.injEq] at hs
    subst hs
    refine ⟨?_, hdone⟩
    simp only [Pool.busy, count_set_waiting_to_exited s.workers i hw.1]
    exact hcount
  | enqueue i path =>
    simp only [Pool.step] at hs
    split_ifs at hs with hw
    simp only [Option.some.injEq] at hs
    subst hs
    refine ⟨hcount, ?_⟩
    intro hd
    have h0 := (hdone hd).2
    have hpos := count_pos_of_working s.workers i hw
    simp only [Pool.busy] at hcount
    omega
  | finish i =>
    by_cases hw : s.workers[i]? = some WorkerState.working
    · simp only [Pool.step, if_pos hw, Option.some.injEq] at hs
      have hc := count_set_from_working s.workers WorkerState.waiting (by decide) i hw
      have hpos := count_pos_of_working s.workers i hw
      simp only [Pool.busy] at hcount
      subst hs
      refine ⟨?_, ?_⟩
      · simp only [Pool.busy]
        omega
      · intro hd
        by_cases hz : s.taskQueue = [] ∧ s.activeWorkers - 1 = 0
        · exact hz
        · have hd' : s.done = true := by
            have := hd
            simp only [if_neg hz] at this
            exact this
          have h0 := (hdone hd').2
          omega
    · simp [Pool.step, hw] at hs

theorem run_rendezvous (events : List PoolEvent) :
    ∀ s s' : Pool, s.Rendezvous → s.run events = some s' → s'.Rendezvous := by
  induction events with
  | nil =>
    intro s s' h hr
    simp only [Pool.run, Option.some.injEq] at hr
    subst hr
    exact h
  | cons ev more ih =>
    intro s s' h hr
    simp only [Pool.run] at hr
    cases hst : s.step ev with
    | none => simp [hst] at hr
    | some s1 =>
      simp only [hst] at hr
      exact ih s1 s' (step_rendezvous s s1 ev h hst) hr

theorem start_rendezvous (roots : List Path) (numThreads : Nat) :
    (Pool.start roots numThreads).Rendezvous := by
  refine ⟨?_, ?_⟩
  · simp only [Pool.start, Pool.busy]
    have : (List.replicate numThreads WorkerState.waiting).count WorkerState.working = 0 := by
      rw [List.count_eq_zero]
      intro h
      exact absurd (List.eq_of_mem_replicate h) (by decide)
    rw [this]
    rfl
  · intro h
    simp [Pool.start] at h

/-- C16. In every state the worker pool reaches from a seeded queue (empty or
not) with done unset, activeWorkers is the number of workers inside processDirectory, and if
done is set then the task queue is empty and activeWorkers is 0, so no worker is
inside processDirectory.  From a state with done set no worker can enqueue a
task, pop one or run the finishing block; and a worker can only exit in a state
with an empty queue and no worker inside processDirectory. -/
theorem pool_done_only_at_rendezvous (roots : List Path) (numThreads : Nat)
    (events : List PoolEvent) (s : Pool)
    (hrun : (Pool.start roots numThreads).run events = some s) :
    s.activeWorkers = s.busy ∧
    (s.done = true → s.taskQueue = [] ∧ s.activeWorkers = 0 ∧
      ∀ w ∈ s.workers, w ≠ WorkerState.working) ∧
    (s.done = true → ∀ (i : Nat) (path : Path),
      s.step (PoolEvent.enqueue i path) = none ∧ s.step (PoolEvent.pop i) = none ∧
      s.step (PoolEvent.finish i) = none) ∧
    (∀ (i : Nat) (s' : Pool), s.step (PoolEvent.exit i) = some s' →
      s.taskQueue = [] ∧ s.activeWorkers = 0 ∧ ∀ w ∈ s.workers, w ≠ WorkerState.working) := by
  have hinv := run_rendezvous events _ s (start_rendezvous roots numThreads) hrun
  have hidle : s.done = true → s.taskQueue = [] ∧ s.activeWorkers = 0 ∧
      ∀ w ∈ s.workers, w ≠ WorkerState.working := by
    intro hd
    obtain ⟨hq, h0⟩ := hinv.2 hd
    refine ⟨hq, h0, ?_⟩
    intro w hw hww
    subst hww
    have hpos : 0 < s.workers.count WorkerState.working := List.count_pos_iff.mpr hw
    have hc := hinv.1
    simp only [Pool.busy] at hc
    omega
  refine ⟨hinv.1, hidle, ?_, ?_⟩
  · intro hd i path
    obtain ⟨hq, _, hnone⟩ := hidle hd
    have hnw : ¬ s.workers[i]? = some WorkerState.working := by
      intro hw
      exact hnone _ (List.getElem?_mem hw) rfl
    refine ⟨?_, ?_, ?_⟩
    · simp only [Pool.step, hnw, if_false]
    · simp only [Pool.step, hq]
      split_ifs <;> rfl
    · simp only [Pool.step, hnw, if_false]
  · intro i s' hs
    simp only [Pool.step] at hs
    split_ifs at hs with hw
    exact hidle hw.2.1

/-- C16 at one root and two workers: worker 0 pops the root, enqueues a
subdirectory and finishes; worker 1 pops the subdirectory and finishes, which
sets done with an empty queue and activeWorkers 0. -/
theorem pool_done_only_at_rendezvous_witness :
    (Pool.start ["C:\\".toList] 2).run
        [PoolEvent.pop 0, PoolEvent.enqueue 0 "C:\\\\Users".toList, PoolEvent.finish 0,
         PoolEvent.pop 1, PoolEvent.finish 1]
      = some { taskQueue := [], activeWorkers := 0, done := true,
               workers := [WorkerState.waiting, WorkerState.waiting] } ∧
    ((Pool.mk [] 0 true [WorkerState.waiting, WorkerState.waiting]).done = true →
      (Pool.mk [] 0 true [WorkerState.waiting, WorkerState.waiting]).taskQueue = [] ∧
      (Pool.mk [] 0 true [WorkerState.waiting, WorkerState.waiting]).activeWorkers = 0 ∧
      ∀ w ∈ (Pool.mk [] 0 true [WorkerState.waiting, WorkerState.waiting]).workers,
        w ≠ WorkerState.working) :=
  ⟨by decide,
    (pool_done_only_at_rendezvous ["C:\\".toList] 2
      [PoolEvent.pop 0, PoolEvent.enqueue 0 "C:\\\\Users".toList, PoolEvent.finish 0,
       PoolEvent.pop 1, PoolEvent.finish 1]
      { taskQueue := [], activeWorkers := 0, done := true,
        workers := [WorkerState.waiting, WorkerState.waiting] }
      (by decide)).2.1⟩

/-! ## C17: what the crawl stages -/

theorem processEntries_eq (fs : FileSystem) (dir : Path) (names : List Path) :
    (processEntries fs dir names).1
      = (names.filter (fun n => !skipEntry n)).map (recordFor fs dir) ∧
    (processEntries fs dir names).2
      = ((names.filter (fun n => !skipEntry n)).filter
          (fun n => attrIsDir (fs.attributes (newPath dir n)))).map (newPath dir) := by
  induction names with
  | nil => exact ⟨rfl, rfl⟩
  | cons name more ih =>
    by_cases hs : skipEntry name = true
    · simp only [processEntries, hs, if_true, List.filter_cons, Bool.not_true,
        Bool.false_eq_true, if_false]
      exact ih
    · have hs' : skipEntry name = false := by simpa using hs
      by_cases hd : attrIsDir (fs.attributes (newPath dir name)) = true
      · simp only [processEntries, hs', Bool.false_eq_true, if_false, hd, if_true,
          List.filter_cons, Bool.not_false, List.map_cons, ih.1, ih.2, recordFor]
        exact ⟨trivial, trivial⟩
      · have hd' : attrIsDir (fs.attributes (newPath dir name)) = false := by simpa using hd
        simp only [processEntries, hs', Bool.false_eq_true, if_false, hd', if_true,
          List.filter_cons, Bool.not_false, List.map_cons, ih.1, ih.2, recordFor]
        exact ⟨trivial, trivial⟩

theorem processDirectory_eq (fs : FileSystem) (dir : Path) :
    (processDirectory fs dir).1 = (entriesOf fs dir).map (recordFor fs dir) ∧
    (processDirectory fs dir).2
      = ((entriesOf fs dir).filter
          (fun n => attrIsDir (fs.attributes (newPath dir n)))).map (newPath dir) := by
  unfold processDirectory entriesOf
  cases fs.readdir dir with
  | none => exact ⟨rfl, rfl⟩
  | some names => exact processEntries_eq fs dir names

theorem childrenOf_append (fs : FileSystem) (a b : List Path) :
    childrenOf fs (a ++ b) = childrenOf fs a ++ childrenOf fs b := by
  simp only [childrenOf, List.map_append, List.flatten_append]

theorem stagedFor_append (fs : FileSystem) (a b : List Path) :
    stagedFor fs (a ++ b) = stagedFor fs a ++ stagedFor fs b := by
  simp only [stagedFor, List.map_append, List.flatten_append]

theorem crawlLoop_nil (fs : FileSystem) (fuel : Nat) (itms : List FileItem) :
    crawlLoop fs fuel [] itms = some itms := by
  cases fuel <;> rfl

/-- Working off a block of queued directories stages their records and puts
their subdirectories behind the rest of the queue. -/
theorem crawlLoop_block (fs : FileSystem) (a : List Path) :
    ∀ (b : List Path) (itms : List FileItem) (fuel : Nat),
      crawlLoop fs (fuel + a.length) (a ++ b) itms
        = crawlLoop fs fuel (b ++ childrenOf fs a) (itms ++ stagedFor fs a) := by
  induction a with
  | nil =>
    intro b itms fuel
    simp [childrenOf, stagedFor]
  | cons t a ih =>
    intro b itms fuel
    have e1 : fuel + (t :: a).length = (fuel + a.length) + 1 := by
      simp only [List.length_cons]
      omega
    have e2 : childrenOf fs (t :: a) = (processDirectory fs t).2 ++ childrenOf fs a := by
      simp only [childrenOf, List.map_cons, List.flatten_cons]
    have e3 : stagedFor fs (t :: a) = (processDirectory fs t).1 ++ stagedFor fs a := by
      simp only [stagedFor, List.map_cons, List.flatten_cons]
    rw [e1, List.cons_append, crawlLoop, List.append_assoc, ih, e2, e3, List.append_assoc,
      List.append_assoc]

/-- When no directory lies deeper than the given depth, the loop ends with the
records of all directories down to that depth, level after level. -/
theorem crawlLoop_levels (fs : FileSystem) (depth : Nat) :
    ∀ (dirs : List Path) (itms : List FileItem) (fuel : Nat),
      levelAt fs (depth + 1) dirs = [] →
      crawlLoop fs (fuel + (visitOrder fs depth dirs).length) dirs itms
        = some (itms ++ stagedFor fs (visitOrder fs depth dirs)) := by
  induction depth with
  | zero =>
    intro dirs itms fuel h
    have hc : childrenOf fs dirs = [] := h
    have := crawlLoop_block fs dirs [] itms fuel
    simp only [List.append_nil, hc] at this
    simp only [visitOrder, this]
    exact crawlLoop_nil fs fuel _
  | succ d ih =>
    intro dirs itms fuel h
    have h' : levelAt fs (d + 1) (childrenOf fs dirs) = [] := h
    have hb := crawlLoop_block fs dirs [] itms
      (fuel + (visitOrder fs d (childrenOf fs dirs)).length)
    simp only [List.append_nil, List.nil_append] at hb
    have e : fuel + (visitOrder fs (d + 1) dirs).length
        = fuel + (visitOrder fs d (childrenOf fs dirs)).length + dirs.length := by
      simp only [visitOrder, List.length_append]
      omega
    rw [e, hb, ih _ _ _ h']
    simp only [visitOrder, stagedFor_append, List.append_assoc]

theorem levelAt_succ (fs : FileSystem) (k : Nat) :
    ∀ dirs : List Path, levelAt fs (k + 1) dirs = childrenOf fs (levelAt fs k dirs) := by
  induction k with
  | zero => intro dirs; rfl
  | succ k ih =>
    intro dirs
    show levelAt fs (k + 1) (childrenOf fs dirs) = childrenOf fs (levelAt fs k (childrenOf fs dirs))
    exact ih (childrenOf fs dirs)

theorem levelAt_eq_nil_of_le (fs : FileSystem) (dirs : List Path) (k : Nat)
    (h : levelAt fs k dirs = []) : ∀ j, k ≤ j → levelAt fs j dirs = [] := by
  intro j hj
  induction j with
  | zero =>
    have : k = 0 := by omega
    subst this
    exact h
  | succ j ih =>
    by_cases hk : k = j + 1
    · subst hk
      exact h
    · rw [levelAt_succ, ih (by omega)]
      rfl

theorem mem_visitOrder (fs : FileSystem) (depth : Nat) :
    ∀ (dirs : List Path) (p : Path),
      p ∈ visitOrder fs depth dirs ↔ ∃ k, k ≤ depth ∧ p ∈ levelAt fs k dirs := by
  induction depth with
  | zero =>
    intro dirs p
    constructor
    · intro h
      exact ⟨0, Nat.le_refl _, h⟩
    · rintro ⟨k, hk, h⟩
      have : k = 0 := by omega
      subst this
      exact h
  | succ d ih =>
    intro dirs p
    simp only [visitOrder, List.mem_append, ih]
    constructor
    · rintro (h | ⟨k, hk, h⟩)
      · exact ⟨0, Nat.zero_le _, h⟩
      · exact ⟨k + 1, by omega, h⟩
    · rintro ⟨k, hk, h⟩
      cases k with
      | zero => exact Or.inl h
      | succ k => exact Or.inr ⟨k, by omega, h⟩

theorem mem_childrenOf (fs : FileSystem) (dirs : List Path) (c : Path) :
    c ∈ childrenOf fs dirs ↔
      ∃ dir ∈ dirs, ∃ name ∈ entriesOf fs dir,
        attrIsDir (fs.attributes (newPath dir name)) = true ∧ c = newPath dir name := by
  simp only [childrenOf, List.mem_flatten, List.mem_map]
  constructor
  · rintro ⟨l, ⟨dir, hdir, rfl⟩, hc⟩
    rw [(processDirectory_eq fs dir).2, List.mem_map] at hc
    obtain ⟨name, hn, rfl⟩ := hc
    rw [List.mem_filter] at hn
    exact ⟨dir, hdir, name, hn.1, hn.2, rfl⟩
  · rintro ⟨dir, hdir, name, hn, hd, rfl⟩
    refine ⟨_, ⟨dir, hdir, rfl⟩, ?_⟩
    rw [(processDirectory_eq fs dir).2, List.mem_map]
    exact ⟨name, List.mem_filter.mpr ⟨hn, hd⟩, rfl⟩

theorem mem_entriesOf (fs : FileSystem) (dir name : Path) :
    name ∈ entriesOf fs dir ↔
      ∃ names, fs.readdir dir = some names ∧ name ∈ names ∧ skipEntry name = false := by
  unfold entriesOf
  cases fs.readdir dir with
  | none => simp
  | some names => simp [List.mem_filter]

theorem visited_of_mem_levelAt (fs : FileSystem) (roots : List Path) (k : Nat) :
    ∀ dirs : List Path, (∀ r ∈ dirs, Visited fs roots r) →
      ∀ p ∈ levelAt fs k dirs, Visited fs roots p := by
  induction k with
  | zero => intro dirs h p hp; exact h p hp
  | succ k ih =>
    intro dirs h p hp
    refine ih (childrenOf fs dirs) ?_ p hp
    intro c hc
    obtain ⟨dir, hdir, name, hn, hd, rfl⟩ := (mem_childrenOf fs dirs c).mp hc
    obtain ⟨names, hr, hmem, hskip⟩ := (mem_entriesOf fs dir name).mp hn
    exact Visited.child dir names name (h dir hdir) hr hmem hskip hd

theorem mem_levelAt_of_visited (fs : FileSystem) (roots : List Path) (p : Path)
    (h : Visited fs roots p) : ∃ k, p ∈ levelAt fs k roots := by
  induction h with
  | root r hr => exact ⟨0, hr⟩
  | child dir names name _ hr hmem hskip hd ih =>
    obtain ⟨k, hk⟩ := ih
    refine ⟨k + 1, ?_⟩
    rw [levelAt_succ, mem_childrenOf]
    exact ⟨dir, hk, name, (mem_entriesOf fs dir name).mpr ⟨names, hr, hmem, hskip⟩, hd, rfl⟩

theorem visitOrder_children (fs : FileSystem) (depth : Nat) :
    ∀ dirs : List Path,
      dirs ++ childrenOf fs (visitOrder fs depth dirs)
        = visitOrder fs depth dirs ++ levelAt fs (depth + 1) dirs := by
  induction depth with
  | zero => intro dirs; rfl
  | succ d ih =>
    intro dirs
    have h := ih (childrenOf fs dirs)
    simp only [visitOrder, childrenOf_append, List.append_assoc]
    rw [h]
    rfl

theorem split_at_unique (x : Char) :
    ∀ (a a' b b' : List Char), x ∉ a → x ∉ a' → a ++ x :: b = a' ++ x :: b' →
      a = a' ∧ b = b' := by
  intro a
  induction a with
  | nil =>
    intro a' b b' _ hx' h
    cases a' with
    | nil =>
      simp only [List.nil_append, List.cons.injEq, true_and] at h
      exact ⟨rfl, h⟩
    | cons y a1 =>
      simp only [List.nil_append, List.cons_append, List.cons.injEq] at h
      exact absurd (by rw [h.1]; exact List.mem_cons_self _ _) hx'
  | cons y a1 ih =>
    intro a' b b' hx hx' h
    cases a' with
    | nil =>
      simp only [List.nil_append, List.cons_append, List.cons.injEq] at h
      exact absurd (by rw [← h.1]; exact List.mem_cons_self _ _) hx
    | cons y' a1' =>
      simp only [List.cons_append, List.cons.injEq] at h
      obtain ⟨h1, h2⟩ := ih a1' b b' (fun hm => hx (List.mem_cons_of_mem _ hm))
        (fun hm => hx' (List.mem_cons_of_mem _ hm)) h.2
      exact ⟨by rw [h.1, h1], h2⟩

/-- Two entries with names free of backslashes have the same crawler path only
when they are the same entry of the same directory. -/
theorem newPath_injective (d1 d2 n1 n2 : Path) (h1 : '\\' ∉ n1) (h2 : '\\' ∉ n2)
    (h : newPath d1 n1 = newPath d2 n2) : d1 = d2 ∧ n1 = n2 := by
  have hr := congrArg List.reverse h
  simp only [newPath, List.reverse_append] at hr
  have e : ∀ d n : Path, n.reverse ++ ("\\".toList.reverse ++ d.reverse)
      = n.reverse ++ '\\' :: d.reverse := fun _ _ => rfl
  rw [e, e] at hr
  obtain ⟨hn, hd⟩ := split_at_unique '\\' _ _ _ _
    (by simpa using h1) (by simpa using h2) hr
  exact ⟨List.reverse_injective hd, List.reverse_injective hn⟩

theorem staged_paths_nodup (fs : FileSystem) (dirs : List Path) (hnd : dirs.Nodup)
    (hnames : ∀ dir ∈ dirs, (entriesOf fs dir).Nodup ∧ ∀ n ∈ entriesOf fs dir, '\\' ∉ n) :
    ((stagedFor fs dirs).map (fun item => item.path)).Nodup := by
  have e : (stagedFor fs dirs).map (fun item => item.path)
      = (dirs.map (fun dir => (entriesOf fs dir).map (newPath dir))).flatten := by
    simp only [stagedFor, List.map_flatten, List.map_map]
    congr 1
    apply List.map_congr_left
    intro dir _
    simp only [Function.comp_def, (processDirectory_eq fs dir).1, List.map_map]
    rfl
  rw [e, List.nodup_flatten]
  constructor
  · intro l hl
    simp only [List.mem_map] at hl
    obtain ⟨dir, hdir, rfl⟩ := hl
    refine List.Nodup.map ?_ (hnames dir hdir).1
    intro n1 n2 hn
    simp only [newPath] at hn
    exact List.append_cancel_left hn
  · rw [List.pairwise_map]
    refine List.Pairwise.imp_of_mem ?_ hnd
    intro d1 d2 hd1 hd2 hne
    intro p hp1 hp2
    simp only [List.mem_map] at hp1 hp2
    obtain ⟨n1, hn1, rfl⟩ := hp1
    obtain ⟨n2, hn2, he⟩ := hp2
    exact hne (newPath_injective d1 d2 n1 n2 ((hnames d1 hd1).2 n1 hn1)
      ((hnames d2 hd2).2 n2 hn2) he.symm).1

theorem skipEntry_iff (name : Path) :
    skipEntry name = true ↔ name = ".".toList ∨ name = "..".toList ∨ '$' ∈ name := by
  simp only [skipEntry, Bool.or_eq_true, beq_iff_eq, List.contains_iff_exists_mem_beq,
    or_assoc]
  constructor
  · rintro (h | h | ⟨c, hc, he⟩)
    · exact Or.inl h
    · exact Or.inr (Or.inl h)
    · have : '$' = c := by simpa using he
      exact Or.inr (Or.inr (this ▸ hc))
  · rintro (h | h | h)
    · exact Or.inl h
    · exact Or.inr (Or.inl h)
    · exact Or.inr (Or.inr ⟨'$', h, by simp⟩)

/-- C17. For a file system in which no directory below the roots lies deeper than
some depth, the worklist crawl ends for every sufficient bound on its
iterations, with the same staged records.  The directories it processes are
exactly the roots and, level after level, the entries it enqueued: those
reachable from a root through directories that could be read, by names that are
not ".", ".." and hold no $, and that are directories by their attributes.  The
staged list holds one record for each not skipped entry of each processed
directory, and nothing else; a record has the path of its entry, the type "d"
exactly when the attribute lookup reports a directory and "f" otherwise, and
the priority getPriorityFromPath of its path.  A directory that cannot be read
stages and enqueues nothing and the loop goes on.  When no directory is
processed twice and the listings hold no name twice and no name with a
backslash, no path is staged twice. -/
theorem crawl_stages_every_reachable_entry (fs : FileSystem) (roots : List Path)
    (depth : Nat) (hfin : levelAt fs (depth + 1) roots = []) :
    (∀ fuel, (visitOrder fs depth roots).length ≤ fuel →
      crawl fs fuel roots = some (stagedFor fs (visitOrder fs depth roots))) ∧
    (∀ dir, dir ∈ visitOrder fs depth roots ↔ Visited fs roots dir) ∧
    visitOrder fs depth roots = roots ++ childrenOf fs (visitOrder fs depth roots) ∧
    stagedFor fs (visitOrder fs depth roots)
      = ((visitOrder fs depth roots).map
          (fun dir => (entriesOf fs dir).map (recordFor fs dir))).flatten ∧
    (∀ item, item ∈ stagedFor fs (visitOrder fs depth roots) ↔
      ∃ dir names name, Visited fs roots dir ∧ fs.readdir dir = some names ∧ name ∈ names ∧
        skipEntry name = false ∧ item = recordFor fs dir name) ∧
    (∀ name, skipEntry name = true ↔
      name = ".".toList ∨ name = "..".toList ∨ '$' ∈ name) ∧
    (∀ dir name, (recordFor fs dir name).path = newPath dir name ∧
      ((recordFor fs dir name).type = "d".toList ↔
        attrIsDir (fs.attributes (newPath dir name)) = true) ∧
      ((recordFor fs dir name).type = "f".toList ↔
        attrIsDir (fs.attributes (newPath dir name)) = false) ∧
      (recordFor fs dir name).priority = getPriorityFromPath (newPath dir name)) ∧
    (∀ dir, fs.readdir dir = none → processDirectory fs dir = ([], [])) ∧
    ((visitOrder fs depth roots).Nodup →
      (∀ dir names, Visited fs roots dir → fs.readdir dir = some names →
        names.Nodup ∧ ∀ n ∈ names, '\\' ∉ n) →
      ((stagedFor fs (visitOrder fs depth roots)).map (fun item => item.path)).Nodup) := by
  have hvis : ∀ dir, dir ∈ visitOrder fs depth roots ↔ Visited fs roots dir := by
    intro dir
    rw [mem_visitOrder]
    constructor
    · rintro ⟨k, _, hk⟩
      exact visited_of_mem_levelAt fs roots k roots (fun r hr => Visited.root r hr) dir hk
    · intro hv
      obtain ⟨k, hk⟩ := mem_levelAt_of_visited fs roots dir hv
      refine ⟨k, ?_, hk⟩
      by_contra hgt
      have := levelAt_eq_nil_of_le fs roots (depth + 1) hfin k (by omega)
      rw [this] at hk
      simp at hk
  have hstaged : stagedFor fs (visitOrder fs depth roots)
      = ((visitOrder fs depth roots).map
          (fun dir => (entriesOf fs dir).map (recordFor fs dir))).flatten := by
    simp only [stagedFor]
    congr 1
    apply List.map_congr_left
    intro dir _
    exact (processDirectory_eq fs dir).1
  refine ⟨?_, hvis, ?_, hstaged, ?_, skipEntry_iff, ?_, ?_, ?_⟩
  · intro fuel hfuel
    obtain ⟨k, rfl⟩ : ∃ k, fuel = k + (visitOrder fs depth roots).length :=
      ⟨fuel - (visitOrder fs depth roots).length, by omega⟩
    have := crawlLoop_levels fs depth roots [] k hfin
    simpa [crawl] using this
  · have := visitOrder_children fs depth roots
    rw [hfin, List.append_nil] at this
    exact this.symm
  · intro item
    rw [hstaged]
    simp only [List.mem_flatten, List.mem_map]
    constructor
    · rintro ⟨l, ⟨dir, hdir, rfl⟩, hitem⟩
      rw [List.mem_map] at hitem
      obtain ⟨name, hn, rfl⟩ := hitem
      obtain ⟨names, hr, hmem, hskip⟩ := (mem_entriesOf fs dir name).mp hn
      exact ⟨dir, names, name, (hvis dir).mp hdir, hr, hmem, hskip, rfl⟩
    · rintro ⟨dir, names, name, hv, hr, hmem, hskip, rfl⟩
      refine ⟨_, ⟨dir, (hvis dir).mpr hv, rfl⟩, ?_⟩
      rw [List.mem_map]
      exact ⟨name, (mem_entriesOf fs dir name).mpr ⟨names, hr, hmem, hskip⟩, rfl⟩
  · intro dir name
    refine ⟨rfl, ?_, ?_, rfl⟩
    · by_cases hd : attrIsDir (fs.attributes (newPath dir name)) = true
      · simp [recordFor, hd]
      · simp only [recordFor, hd, Bool.false_eq_true, if_false, iff_false]
        decide
    · by_cases hd : attrIsDir (fs.attributes (newPath dir name)) = true
      · simp only [recordFor, hd, if_true, Bool.true_eq_false, iff_false]
        decide
      · simp [recordFor, hd]
  · intro dir hr
    simp only [processDirectory, hr]
  · intro hnd hnames
    apply staged_paths_nodup fs _ hnd
    intro dir hdir
    have hv := (hvis dir).mp hdir
    unfold entriesOf
    cases hr : fs.readdir dir with
    | none => simp
    | some names =>
      obtain ⟨h1, h2⟩ := hnames dir names hv hr
      exact ⟨h1.filter _, fun n hn => h2 n (List.mem_filter.mp hn).1⟩

/-- C17 at sampleVolume: no directory lies deeper than depth 1 below C:\, and the
crawl stages the directory Users, the file pagefile.sys, the directory Locked
(which cannot be read) and the file a.txt of Users, and none of ".", ".." and
$Recycle.Bin. -/
theorem crawl_stages_every_reachable_entry_witness :
    levelAt sampleVolume (1 + 1) ["C:\\".toList] = [] ∧
    crawl sampleVolume 3 ["C:\\".toList]
      = some [{ path := "C:\\\\Users".toList, type := "d".toList, priority := 0 },
              { path := "C:\\\\pagefile.sys".toList, type := "f".toList, priority := 0 },
              { path := "C:\\\\Locked".toList, type := "d".toList, priority := 0 },
              { path := "C:\\\\Users\\a.txt".toList, type := "f".toList, priority := 0 }] := by
  have h : levelAt sampleVolume (1 + 1) ["C:\\".toList] = [] := by decide
  refine ⟨h, ?_⟩
  rw [(crawl_stages_every_reachable_entry sampleVolume ["C:\\".toList] 1 h).1 3 (by decide)]
  decide

end Vulture
